import Mathlib

/-!
Verification of the target-graph and job-scheduling core of the abamake /
Complemake build orchestrator.

The Python sources are embedded shallowly:

* `Target._is_build_needed` (src/abamake/target.py) — rebuild decision;
* `ScheduledJob` block-count bookkeeping (src/abamake.py);
* `Make.run_scheduled_jobs` / `Make._collect_completed_jobs` — a small-step
  transition system over scheduler states;
* `Make._unschedule_jobs_blocked_by` — including its duck-typed recursive call;
* `Make.schedule_target_jobs` — memoized job-graph construction;
* `Core.build_targets` (src/comk/core.py) — metadata write on exit paths;
* `Core.validate_dependency_graph` / `Core._validate_dependency_subtree`
  (src/comk/core.py) — depth-first cycle detection.

Targets, jobs and file paths are identified by natural numbers; external
collaborators (the metadata store) are parameters.
-/

namespace Abamake

/-! ### Rebuild decision: `Target._is_build_needed` (src/abamake/target.py:123-163)

`mk.file_metadata_changed` is an external collaborator (the metadata store of a
`Make` generation not present in this tree); it is passed in as the function
`metadataChanged`.  File paths are opaque identifiers (`Nat`).  A Python value
that may be `None` or a list is embedded as `Option (List Nat)`; Python
truthiness maps `None` and `[]` to `false`. -/

/-- Python truthiness of the changed-files value (`None` and the empty list are
falsy). -/
def changedTruthy : Option (List Nat) → Bool
  | none => false
  | some l => !l.isEmpty

/-- Shallow embedding of `Target._is_build_needed(mk, iterBlockingJobs,
iterFilesToCheck)`.  Returns the pair `(build needed, changed files)` exactly as
the Python method does; logging statements have no observable effect and are
omitted. -/
def is_build_needed (metadataChanged : List Nat → Option (List Nat))
    (forceBuild : Bool) (blockingJobs : List Nat) (filesToCheck : List Nat) :
    Bool × Option (List Nat) :=
  -- Get a list of changed files.
  let changedFiles : Option (List Nat) :=
    if !filesToCheck.isEmpty then metadataChanged filesToCheck else none
  -- See if this build is really necessary.
  if !blockingJobs.isEmpty then
    (true, changedFiles)
  else if changedTruthy changedFiles then
    (true, changedFiles)
  else if forceBuild then
    (true, changedFiles)
  else
    -- No dependencies being rebuilt, source up-to-date: no need to rebuild.
    (false, none)

/-- C6 — Rebuild decision precedence: `_is_build_needed` returns
`(true, changed)` when the blocking-jobs collection is non-empty; otherwise
`(true, changed)` when the metadata store reports changed files; otherwise
`(true, changed)` (with `changed` falsy) when the force-build flag is set;
otherwise `(false, none)` — in exactly that precedence order, so with
`force_build` set and no changes detected a build is still reported needed. -/
theorem is_build_needed_precedence (metadataChanged : List Nat → Option (List Nat))
    (forceBuild : Bool) (blockingJobs : List Nat) (filesToCheck : List Nat) :
    (blockingJobs ≠ [] →
      is_build_needed metadataChanged forceBuild blockingJobs filesToCheck =
        (true, if !filesToCheck.isEmpty then metadataChanged filesToCheck else none)) ∧
    (blockingJobs = [] →
      changedTruthy (if !filesToCheck.isEmpty then metadataChanged filesToCheck else none) = true →
      is_build_needed metadataChanged forceBuild blockingJobs filesToCheck =
        (true, if !filesToCheck.isEmpty then metadataChanged filesToCheck else none)) ∧
    (blockingJobs = [] →
      changedTruthy (if !filesToCheck.isEmpty then metadataChanged filesToCheck else none) = false →
      forceBuild = true →
      is_build_needed metadataChanged forceBuild blockingJobs filesToCheck =
        (true, if !filesToCheck.isEmpty then metadataChanged filesToCheck else none)) ∧
    (blockingJobs = [] →
      changedTruthy (if !filesToCheck.isEmpty then metadataChanged filesToCheck else none) = false →
      forceBuild = false →
      is_build_needed metadataChanged forceBuild blockingJobs filesToCheck = (false, none)) := by
  refine ⟨?_, ?_, ?_, ?_⟩ <;> intros <;>
    simp_all [is_build_needed, List.isEmpty_iff]

/-- C6 witness: a concrete instantiation of each branch of the precedence
theorem. -/
theorem is_build_needed_precedence_witness :
    is_build_needed (fun _ => some []) true [7] [1, 2] = (true, some []) ∧
    is_build_needed (fun _ => some [1]) false [] [1, 2] = (true, some [1]) ∧
    is_build_needed (fun _ => some []) true [] [1, 2] = (true, some []) ∧
    is_build_needed (fun _ => some []) false [] [1, 2] = (false, none) := by
  refine ⟨?_, ?_, ?_, ?_⟩
  · exact (is_build_needed_precedence (fun _ => some []) true [7] [1, 2]).1 (by decide)
  · exact (is_build_needed_precedence (fun _ => some [1]) false [] [1, 2]).2.1 rfl (by decide)
  · exact (is_build_needed_precedence (fun _ => some []) true [] [1, 2]).2.2.1 rfl (by decide) rfl
  · exact (is_build_needed_precedence (fun _ => some []) false [] [1, 2]).2.2.2 rfl (by decide) rfl

/-! ### `ScheduledJob` blocking bookkeeping (src/abamake.py:667-731)

One scheduling session constructs jobs `0, …, numJobs - 1`; `blockers j` is the
`iterBlockingJobs` list passed to `ScheduledJob.__init__` for job `j`, in list
order and with duplicates preserved.  `ScheduledJob.__init__` calls
`sjDep._add_blocked(self)` for every entry of the list and stores
`len(iterBlockingJobs)` in `_m_cBlocks`; `_add_blocked` inserts into a Python
set, so each blocked job is stored once no matter how often it occurs. -/

/-- The constructed job graph of one session. -/
structure JobGraph where
  numJobs : Nat
  blockers : Nat → List Nat

/-- `_m_setBlockedJobs` of job `d`: every job whose constructor received `d`
among its blocking jobs, each listed once (Python set semantics). -/
def blockedSet (g : JobGraph) (d : Nat) : List Nat :=
  (List.range g.numJobs).filter (fun k => d ∈ g.blockers k)

/-- `_m_cBlocks` as assigned by `ScheduledJob.__init__`: the length of the
blocking-jobs list, duplicates included. -/
def initBlocks (g : JobGraph) (j : Nat) : Nat := (g.blockers j).length

/-- `ScheduledJob.release_blocked` of job `d`: decrement `_m_cBlocks` of every
job in `d`'s blocked set. -/
def release_blocked (g : JobGraph) (d : Nat) (blocks : Nat → Nat) : Nat → Nat :=
  fun j => if j ∈ blockedSet g d then blocks j - 1 else blocks j

/-- Block counts after every job in `completed` has completed (in order),
each releasing its blocked set once. -/
def blocksAfter (g : JobGraph) (completed : List Nat) : Nat → Nat :=
  completed.foldl (fun blocks d => release_blocked g d blocks) (initBlocks g)

theorem mem_blockedSet (g : JobGraph) (d k : Nat) :
    k ∈ blockedSet g d ↔ k < g.numJobs ∧ d ∈ g.blockers k := by
  simp [blockedSet]

theorem foldl_release_eq (g : JobGraph) (cs : List Nat) (blocks : Nat → Nat) (j : Nat) :
    (cs.foldl (fun b d => release_blocked g d b) blocks) j =
      blocks j - cs.countP (fun d => decide (j ∈ blockedSet g d)) := by
  induction cs generalizing blocks with
  | nil => simp
  | cons c cs ih =>
    rw [List.foldl_cons, ih, List.countP_cons]
    by_cases h : j ∈ blockedSet g c <;>
      simp [release_blocked, h, Nat.sub_sub, Nat.add_comm]

theorem blocksAfter_eq (g : JobGraph) (completed : List Nat) (j : Nat)
    (hj : j < g.numJobs) :
    blocksAfter g completed j =
      (g.blockers j).length - completed.countP (fun d => decide (d ∈ g.blockers j)) := by
  rw [blocksAfter, foldl_release_eq]
  congr 1
  apply List.countP_congr
  intro d _
  simp [mem_blockedSet, hj]

theorem countP_mem_eq_filter_length (cs L : List Nat) (hcs : cs.Nodup) (hL : L.Nodup) :
    cs.countP (fun d => decide (d ∈ L)) = (L.filter (fun b => decide (b ∈ cs))).length := by
  rw [List.countP_eq_length_filter]
  rw [← List.toFinset_card_of_nodup (hcs.filter _), ← List.toFinset_card_of_nodup (hL.filter _)]
  congr 1
  apply Finset.ext
  intro a
  simp [List.mem_filter, And.comm]

/-- C10 — blocking-count bookkeeping: `ScheduledJob.__init__` with blocking list
`L` sets the block count to `len L` while registering the job in each blocker's
deduplicated blocked set; each completed blocker decrements the count exactly
once.  Hence, for any set of completed jobs (each job completes at most once), a
job with a duplicate-free list reaches count `0` exactly when all of its
blockers completed, while a job whose list contains a duplicate keeps a positive
count forever. -/
theorem scheduledJob_blocks_bookkeeping (g : JobGraph) (j : Nat)
    (completed : List Nat) (hj : j < g.numJobs) (hnd : completed.Nodup) :
    initBlocks g j = (g.blockers j).length ∧
    (∀ d k, k ∈ blockedSet g d ↔ k < g.numJobs ∧ d ∈ g.blockers k) ∧
    ((g.blockers j).Nodup →
      (blocksAfter g completed j = 0 ↔ ∀ b ∈ g.blockers j, b ∈ completed)) ∧
    (¬(g.blockers j).Nodup → 0 < blocksAfter g completed j) := by
  refine ⟨rfl, mem_blockedSet g, ?_, ?_⟩
  · intro hL
    rw [blocksAfter_eq g completed j hj,
      countP_mem_eq_filter_length completed (g.blockers j) hnd hL]
    constructor
    · intro h0 b hb
      have hle : ((g.blockers j).filter (fun b => decide (b ∈ completed))).length =
          (g.blockers j).length := by
        have := List.length_filter_le (fun b => decide (b ∈ completed)) (g.blockers j)
        omega
      have hself : (g.blockers j).filter (fun b => decide (b ∈ completed)) = g.blockers j :=
        (List.filter_sublist _).eq_of_length hle
      have : ∀ b ∈ g.blockers j, decide (b ∈ completed) = true := by
        rw [← List.filter_eq_self]; exact hself
      simpa using this b hb
    · intro hall
      have hself : (g.blockers j).filter (fun b => decide (b ∈ completed)) = g.blockers j := by
        rw [List.filter_eq_self]
        intro b hb
        simpa using hall b hb
      rw [hself]
      omega
  · intro hL
    rw [blocksAfter_eq g completed j hj]
    have hdlt : (g.blockers j).dedup.length < (g.blockers j).length := by
      have hle : (g.blockers j).dedup.length ≤ (g.blockers j).length :=
        (List.dedup_sublist _).length_le
      rcases Nat.lt_or_ge (g.blockers j).dedup.length (g.blockers j).length with h | h
      · exact h
      · exfalso
        have heq : (g.blockers j).dedup = g.blockers j :=
          (List.dedup_sublist _).eq_of_length (Nat.le_antisymm hle h)
        exact hL (heq ▸ List.nodup_dedup _)
    have hcnt : completed.countP (fun d => decide (d ∈ g.blockers j)) ≤
        (g.blockers j).dedup.length := by
      have hpred : completed.countP (fun d => decide (d ∈ g.blockers j)) =
          completed.countP (fun d => decide (d ∈ (g.blockers j).dedup)) := by
        apply List.countP_congr
        intro d _
        simp [List.mem_dedup]
      rw [hpred, countP_mem_eq_filter_length completed (g.blockers j).dedup hnd
        (List.nodup_dedup _)]
      exact List.length_filter_le _ _
    omega

/-- A concrete four-job graph: job `2` is blocked on the duplicate-free list
`[0, 1]`, job `3` on the duplicated list `[0, 0]`. -/
def sampleJobGraph : JobGraph :=
  ⟨4, fun j => if j = 2 then [0, 1] else if j = 3 then [0, 0] else []⟩

/-- C10 witness: the bookkeeping theorem applied to `sampleJobGraph` at job `2`
with completed jobs `[0, 1]`. -/
theorem scheduledJob_blocks_bookkeeping_witness :
    2 < sampleJobGraph.numJobs ∧ List.Nodup [0, 1] ∧
    (initBlocks sampleJobGraph 2 = (sampleJobGraph.blockers 2).length ∧
      (∀ d k, k ∈ blockedSet sampleJobGraph d ↔
        k < sampleJobGraph.numJobs ∧ d ∈ sampleJobGraph.blockers k) ∧
      ((sampleJobGraph.blockers 2).Nodup →
        (blocksAfter sampleJobGraph [0, 1] 2 = 0 ↔
          ∀ b ∈ sampleJobGraph.blockers 2, b ∈ [0, 1])) ∧
      (¬(sampleJobGraph.blockers 2).Nodup → 0 < blocksAfter sampleJobGraph [0, 1] 2)) :=
  ⟨by decide, by decide,
    scheduledJob_blocks_bookkeeping sampleJobGraph 2 [0, 1] (by decide) (by decide)⟩

/-! ### The job runner: `Make.run_scheduled_jobs`, `Make._collect_completed_jobs`,
`Make._unschedule_jobs_blocked_by` (src/abamake.py:807-859, 1058-1100, 1145-1156)

The scheduler is embedded as a small-step transition system.  Which running
process exits first, its exit status, and which eligible pending job the
iteration over the scheduled set yields first are environment choices, so they
are non-deterministic transitions here; the guards of each transition are the
conditions the Python loop checks. -/

/-- Exceptions the embedded scheduler can raise. -/
inductive PyExn where
  | attributeError
  | recursionError
deriving DecidableEq

/-- The duck-typed argument of `Make._unschedule_jobs_blocked_by`:
`_collect_completed_jobs` passes a `ScheduledJob`, but the recursive call at
src/abamake.py:1156 passes the set `sjBlocked._m_setBlockedJobs` instead of the
job `sjBlocked`. -/
inductive UnschedArg where
  | job (j : Nat)
  | jobSet (s : List Nat)

mutual

/-- `Make._unschedule_jobs_blocked_by` (src/abamake.py:1145-1156).  With a
`ScheduledJob` argument it runs the loop over the job's `_m_setBlockedJobs`;
with a `set` argument (as produced by its own recursive call) the attribute
access `sj._m_setBlockedJobs` raises `AttributeError` at once.  The fuel only
bounds the recursion depth for Lean's sake; the Python recursion is bounded the
same way by the job graph. -/
def unschedule_jobs_blocked_by (g : JobGraph) :
    Nat → UnschedArg → List Nat → Except PyExn (List Nat)
  | _, .jobSet _, _ => .error .attributeError
  | 0, .job _, _ => .error .recursionError
  | fuel + 1, .job j, scheduled => unschedLoop g fuel (blockedSet g j) scheduled
termination_by fuel _ _ => (fuel, 0)

/-- The `for sjBlocked in sj._m_setBlockedJobs` loop of
`_unschedule_jobs_blocked_by`: discard each blocked job from the scheduled set
(`set.discard`), and on a blocked job with a non-empty blocked set recurse —
passing that blocked set itself as the argument. -/
def unschedLoop (g : JobGraph) : Nat → List Nat → List Nat → Except PyExn (List Nat)
  | _, [], scheduled => .ok scheduled
  | fuel, b :: bs, scheduled =>
    let scheduled1 := scheduled.erase b
    if (blockedSet g b).isEmpty then
      unschedLoop g fuel bs scheduled1
    else
      match unschedule_jobs_blocked_by g fuel (.jobSet (blockedSet g b)) scheduled1 with
      | .error e => .error e
      | .ok scheduled2 => unschedLoop g fuel bs scheduled2
termination_by fuel bs _ => (fuel, bs.length + 1)

end

/-- Observable events of `Make.run_scheduled_jobs`: a job being dispatched
(moved from the scheduled set to the running set and its process started), or a
running job's process completing with success flag `ok`. -/
inductive SchedEvent where
  | dispatch (j : Nat)
  | complete (j : Nat) (ok : Bool)
deriving DecidableEq

/-- Configuration switches of `Make` consumed by the scheduler:
`_m_cRunningJobsMax`, `_m_bIgnoreErrors`, `_m_bKeepGoing`. -/
structure SchedConfig where
  maxRunning : Nat
  ignoreErrors : Bool
  keepGoing : Bool

/-- Mutable scheduler state of `Make`: `_m_setScheduledJobs` (pending set),
`_m_dictRunningJobs` (running set), each job's `_m_cBlocks`, the accumulated
failed-job tally of `run_scheduled_jobs`, and whether an uncaught exception
aborted the run. -/
structure SchedState where
  scheduled : List Nat
  running : List Nat
  blocks : Nat → Nat
  failedJobs : Nat
  crashed : Bool

/-- State at entry of `run_scheduled_jobs`: every constructed `ScheduledJob`
was added to the pending set by `Make._schedule_job` at construction time
(src/abamake.py:692-693, 1103-1106), blocked or not, and its block count is the
length of its blocking list. -/
def initState (g : JobGraph) : SchedState :=
  { scheduled := List.range g.numJobs
    running := []
    blocks := initBlocks g
    failedJobs := 0
    crashed := false }

/-- One scheduler step.  `dispatch`: src/abamake.py:1079-1097 — an unblocked
pending job is started once a free slot exists.  The `complete` steps mirror
src/abamake.py:831-845: on exit status zero, or any status under
`ignore_errors`, the job releases its blocked jobs; otherwise the failure is
tallied, and under `keep_going` the jobs blocked by the failed one are
unscheduled first — which raises `AttributeError` whenever a directly blocked
job has a non-empty blocked set, aborting the run (`crashed`; the tally
increment at line 845 is skipped and the partially pruned scheduled set is
never observed again, so the state keeps the pre-call scheduled set). -/
inductive Step (g : JobGraph) (cfg : SchedConfig) :
    SchedState → SchedEvent → SchedState → Prop
  | dispatch (j : Nat) (s : SchedState)
      (hc : s.crashed = false)
      (hmem : j ∈ s.scheduled)
      (hblocks : s.blocks j = 0)
      (hroom : s.running.length < cfg.maxRunning) :
      Step g cfg s (.dispatch j)
        { s with scheduled := s.scheduled.erase j, running := j :: s.running }
  | completeOk (j : Nat) (s : SchedState)
      (hc : s.crashed = false)
      (hmem : j ∈ s.running) :
      Step g cfg s (.complete j true)
        { s with running := s.running.erase j,
                 blocks := release_blocked g j s.blocks }
  | completeFailIgnored (j : Nat) (s : SchedState)
      (hc : s.crashed = false)
      (hmem : j ∈ s.running)
      (hig : cfg.ignoreErrors = true) :
      Step g cfg s (.complete j false)
        { s with running := s.running.erase j,
                 blocks := release_blocked g j s.blocks }
  | completeFail (j : Nat) (s : SchedState)
      (hc : s.crashed = false)
      (hmem : j ∈ s.running)
      (hig : cfg.ignoreErrors = false)
      (hnu : cfg.keepGoing = false ∨ blockedSet g j = []) :
      Step g cfg s (.complete j false)
        { s with running := s.running.erase j, failedJobs := s.failedJobs + 1 }
  | completeFailUnscheduled (j : Nat) (s : SchedState) (scheduled2 : List Nat)
      (hc : s.crashed = false)
      (hmem : j ∈ s.running)
      (hig : cfg.ignoreErrors = false)
      (hkg : cfg.keepGoing = true)
      (hbs : blockedSet g j ≠ [])
      (hun : unschedule_jobs_blocked_by g (g.numJobs + 1) (.job j) s.scheduled =
        .ok scheduled2) :
      Step g cfg s (.complete j false)
        { s with running := s.running.erase j, scheduled := scheduled2,
                 failedJobs := s.failedJobs + 1 }
  | completeFailCrash (j : Nat) (s : SchedState) (e : PyExn)
      (hc : s.crashed = false)
      (hmem : j ∈ s.running)
      (hig : cfg.ignoreErrors = false)
      (hkg : cfg.keepGoing = true)
      (hbs : blockedSet g j ≠ [])
      (hun : unschedule_jobs_blocked_by g (g.numJobs + 1) (.job j) s.scheduled =
        .error e) :
      Step g cfg s (.complete j false)
        { s with running := s.running.erase j, crashed := true }

/-- An execution trace of the scheduler: a sequence of steps. -/
inductive Exec (g : JobGraph) (cfg : SchedConfig) :
    SchedState → List SchedEvent → SchedState → Prop
  | nil (s : SchedState) : Exec g cfg s [] s
  | cons {s₁ s₂ s₃ : SchedState} {e : SchedEvent} {tr : List SchedEvent} :
      Step g cfg s₁ e s₂ → Exec g cfg s₂ tr s₃ → Exec g cfg s₁ (e :: tr) s₃

/-- Number of dispatch events for job `j` in a trace. -/
def dispatchCount (tr : List SchedEvent) (j : Nat) : Nat :=
  tr.countP (fun e => decide (e = SchedEvent.dispatch j))

/-- Number of completion events for job `j` in a trace. -/
def completeCount (tr : List SchedEvent) (j : Nat) : Nat :=
  tr.countP (fun e => match e with
    | .complete k _ => decide (k = j)
    | _ => false)

/-- Whether some completion of job `b` in the trace released its blocked jobs
(exit status zero, or any status under `ignore_errors`). -/
def releasedIn (cfg : SchedConfig) (tr : List SchedEvent) (b : Nat) : Bool :=
  tr.any (fun e => match e with
    | .complete k ok => decide (k = b) && (ok || cfg.ignoreErrors)
    | _ => false)

theorem unschedLoop_ok_sublist (g : JobGraph) (fuel : Nat) :
    ∀ (bs scheduled scheduled2 : List Nat),
      unschedLoop g fuel bs scheduled = Except.ok scheduled2 →
      scheduled2.Sublist scheduled := by
  intro bs
  induction bs with
  | nil =>
    intro scheduled scheduled2 h
    simp only [unschedLoop] at h
    cases h
    exact List.Sublist.refl _
  | cons b bs ih =>
    intro scheduled scheduled2 h
    simp only [unschedLoop, unschedule_jobs_blocked_by] at h
    by_cases hbe : (blockedSet g b).isEmpty
    · rw [if_pos hbe] at h
      exact (ih _ _ h).trans (List.erase_sublist _ _)
    · rw [if_neg hbe] at h
      cases h

theorem unschedule_ok_sublist (g : JobGraph) (fuel : Nat) (j : Nat)
    (scheduled scheduled2 : List Nat)
    (h : unschedule_jobs_blocked_by g fuel (.job j) scheduled = .ok scheduled2) :
    scheduled2.Sublist scheduled := by
  match fuel with
  | 0 =>
    simp only [unschedule_jobs_blocked_by] at h
    cases h
  | fuel + 1 =>
    simp only [unschedule_jobs_blocked_by] at h
    exact unschedLoop_ok_sublist g fuel _ scheduled scheduled2 h

theorem dispatchCount_snoc_dispatch (tr : List SchedEvent) (k j : Nat) :
    dispatchCount (tr ++ [SchedEvent.dispatch k]) j =
      dispatchCount tr j + (if k = j then 1 else 0) := by
  by_cases h : k = j <;>
    simp [dispatchCount, List.countP_append, List.countP_cons, h]

theorem dispatchCount_snoc_complete (tr : List SchedEvent) (k j : Nat) (ok : Bool) :
    dispatchCount (tr ++ [SchedEvent.complete k ok]) j = dispatchCount tr j := by
  simp [dispatchCount, List.countP_append, List.countP_cons]

theorem completeCount_snoc_dispatch (tr : List SchedEvent) (k j : Nat) :
    completeCount (tr ++ [SchedEvent.dispatch k]) j = completeCount tr j := by
  simp [completeCount, List.countP_append, List.countP_cons]

theorem completeCount_snoc_complete (tr : List SchedEvent) (k j : Nat) (ok : Bool) :
    completeCount (tr ++ [SchedEvent.complete k ok]) j =
      completeCount tr j + (if k = j then 1 else 0) := by
  by_cases h : k = j <;>
    simp [completeCount, List.countP_append, List.countP_cons, h]

theorem releasedIn_snoc_dispatch (cfg : SchedConfig) (tr : List SchedEvent) (k b : Nat) :
    releasedIn cfg (tr ++ [SchedEvent.dispatch k]) b = releasedIn cfg tr b := by
  simp [releasedIn, List.any_append]

theorem releasedIn_snoc_complete (cfg : SchedConfig) (tr : List SchedEvent)
    (k b : Nat) (ok : Bool) :
    releasedIn cfg (tr ++ [SchedEvent.complete k ok]) b =
      (releasedIn cfg tr b || (decide (k = b) && (ok || cfg.ignoreErrors))) := by
  simp [releasedIn, List.any_append]

theorem releasedIn_imp_completeCount {cfg : SchedConfig} {tr : List SchedEvent} {b : Nat}
    (h : releasedIn cfg tr b = true) : 1 ≤ completeCount tr b := by
  rw [releasedIn, List.any_eq_true] at h
  obtain ⟨e, he, hp⟩ := h
  cases e with
  | dispatch j => simp at hp
  | complete k ok =>
    have hk : k = b := by
      have := (Bool.and_eq_true _ _).mp hp
      exact of_decide_eq_true this.1
    have : 0 < completeCount tr b := by
      rw [completeCount, List.countP_pos_iff]
      exact ⟨SchedEvent.complete k ok, he, by simp [hk]⟩
    omega

theorem countP_or_single {L : List Nat} (hL : L.Nodup) {j : Nat} (hj : j ∈ L)
    (p : Nat → Bool) (hpj : p j = false) :
    L.countP (fun b => p b || decide (j = b)) = L.countP p + 1 := by
  induction L with
  | nil => cases hj
  | cons a L ih =>
    rw [List.countP_cons, List.countP_cons]
    rcases List.mem_cons.mp hj with rfl | hjL
    · have hnotin : j ∉ L := (List.nodup_cons.mp hL).1
      have hcong : L.countP (fun b => p b || decide (j = b)) = L.countP p := by
        apply List.countP_congr
        intro b hb
        have hne : j ≠ b := fun h => hnotin (h ▸ hb)
        simp [hne]
      rw [hcong, hpj]
      simp
    · have hanej : j ≠ a := by
        rintro rfl
        exact (List.nodup_cons.mp hL).1 hjL
      rw [ih (List.nodup_cons.mp hL).2 hjL]
      simp [hanej]
      omega

/-- The inductive invariant of the scheduler: the pending set is a subset of
the constructed jobs, none of which was dispatched yet; the running set
contains exactly the dispatched-but-not-completed jobs and respects the
concurrency cap; each job is dispatched and completed at most once; and each
job's block count plus the number of its distinct released blockers equals the
length of its blocking list. -/
structure SchedInv (g : JobGraph) (cfg : SchedConfig) (tr : List SchedEvent)
    (s : SchedState) : Prop where
  sched_sublist : s.scheduled.Sublist (List.range g.numJobs)
  run_nodup : s.running.Nodup
  run_le : s.running.length ≤ cfg.maxRunning
  sched_fresh : ∀ j ∈ s.scheduled, dispatchCount tr j = 0
  run_iff : ∀ j, j ∈ s.running ↔ (dispatchCount tr j = 1 ∧ completeCount tr j = 0)
  disp_le_one : ∀ j, dispatchCount tr j ≤ 1
  comp_le_disp : ∀ j, completeCount tr j ≤ dispatchCount tr j
  blocks_eq : ∀ j, j < g.numJobs →
    s.blocks j + (g.blockers j).dedup.countP (fun b => releasedIn cfg tr b) =
      (g.blockers j).length

theorem schedInv_init (g : JobGraph) (cfg : SchedConfig) :
    SchedInv g cfg [] (initState g) where
  sched_sublist := List.Sublist.refl _
  run_nodup := List.nodup_nil
  run_le := Nat.zero_le _
  sched_fresh := by intro j _; rfl
  run_iff := by intro j; simp [initState, dispatchCount, completeCount]
  disp_le_one := by intro j; simp [dispatchCount]
  comp_le_disp := by intro j; simp [completeCount, dispatchCount]
  blocks_eq := by
    intro j hj
    have h0 : (g.blockers j).dedup.countP (fun b => releasedIn cfg [] b) = 0 := by
      simp [releasedIn]
    simp [initState, initBlocks, h0]

theorem blocks_eq_after_release {g : JobGraph} {cfg : SchedConfig}
    {tr : List SchedEvent} {s : SchedState} {j : Nat} (ok : Bool)
    (inv : SchedInv g cfg tr s) (hmem : j ∈ s.running)
    (hok : (ok || cfg.ignoreErrors) = true) :
    ∀ k, k < g.numJobs →
      release_blocked g j s.blocks k +
        (g.blockers k).dedup.countP
          (fun b => releasedIn cfg (tr ++ [SchedEvent.complete j ok]) b) =
      (g.blockers k).length := by
  intro k hk
  have hjrel : releasedIn cfg tr j = false := by
    cases h : releasedIn cfg tr j
    · rfl
    · have h1 := releasedIn_imp_completeCount h
      have h0 := (inv.run_iff j).mp hmem
      omega
  have hbase := inv.blocks_eq k hk
  by_cases hjk : k ∈ blockedSet g j
  · have hjbk : j ∈ g.blockers k := ((mem_blockedSet g j k).mp hjk).2
    have hjdedup : j ∈ (g.blockers k).dedup := List.mem_dedup.mpr hjbk
    have hcong : (g.blockers k).dedup.countP
        (fun b => releasedIn cfg (tr ++ [SchedEvent.complete j ok]) b) =
        (g.blockers k).dedup.countP (fun b => releasedIn cfg tr b || decide (j = b)) := by
      apply List.countP_congr
      intro b _
      rw [releasedIn_snoc_complete, hok, Bool.and_true]
    rw [hcong, countP_or_single (List.nodup_dedup _) hjdedup
      (fun b => releasedIn cfg tr b) hjrel]
    have hrel : release_blocked g j s.blocks k = s.blocks k - 1 := by
      simp [release_blocked, hjk]
    rw [hrel]
    have hle : (g.blockers k).dedup.countP (fun b => releasedIn cfg tr b) ≤
        (g.blockers k).dedup.length := List.countP_le_length _
    have hne : (g.blockers k).dedup.countP (fun b => releasedIn cfg tr b) ≠
        (g.blockers k).dedup.length := by
      intro heq
      have := List.countP_eq_length.mp heq j hjdedup
      rw [hjrel] at this
      cases this
    have hdle : (g.blockers k).dedup.length ≤ (g.blockers k).length :=
      (List.dedup_sublist _).length_le
    omega
  · have hjnb : j ∉ g.blockers k := fun hmem2 =>
      hjk ((mem_blockedSet g j k).mpr ⟨hk, hmem2⟩)
    have hcong : (g.blockers k).dedup.countP
        (fun b => releasedIn cfg (tr ++ [SchedEvent.complete j ok]) b) =
        (g.blockers k).dedup.countP (fun b => releasedIn cfg tr b) := by
      apply List.countP_congr
      intro b hb
      have hne : j ≠ b := by
        rintro rfl
        exact hjnb (List.mem_dedup.mp hb)
      rw [releasedIn_snoc_complete]
      simp [hne]
    rw [hcong]
    have hrel : release_blocked g j s.blocks k = s.blocks k := by
      simp [release_blocked, hjk]
    rw [hrel]
    exact hbase

theorem blocks_eq_after_noRelease {g : JobGraph} {cfg : SchedConfig}
    {tr : List SchedEvent} {s : SchedState} {j : Nat}
    (inv : SchedInv g cfg tr s) (hni : cfg.ignoreErrors = false) :
    ∀ k, k < g.numJobs →
      s.blocks k + (g.blockers k).dedup.countP
        (fun b => releasedIn cfg (tr ++ [SchedEvent.complete j false]) b) =
      (g.blockers k).length := by
  intro k hk
  have hcong : (g.blockers k).dedup.countP
      (fun b => releasedIn cfg (tr ++ [SchedEvent.complete j false]) b) =
      (g.blockers k).dedup.countP (fun b => releasedIn cfg tr b) := by
    apply List.countP_congr
    intro b _
    rw [releasedIn_snoc_complete, hni]
    simp
  rw [hcong]
  exact inv.blocks_eq k hk

/-- Collecting one completed job preserves the invariant: generic over the new
pending set (any subset of the old one), the new block counts (any counts that
satisfy the accounting identity for the extended trace), the tally and the
crash flag, since the invariant does not constrain the latter two. -/
theorem schedInv_step_complete {g : JobGraph} {cfg : SchedConfig}
    {tr : List SchedEvent} {s : SchedState} {j : Nat} {ok : Bool}
    (inv : SchedInv g cfg tr s) (hmem : j ∈ s.running)
    {sched2 : List Nat} (hsub : sched2.Sublist s.scheduled)
    {blocks2 : Nat → Nat}
    (hblocks2 : ∀ k, k < g.numJobs →
      blocks2 k + (g.blockers k).dedup.countP
        (fun b => releasedIn cfg (tr ++ [SchedEvent.complete j ok]) b) =
      (g.blockers k).length)
    (failed2 : Nat) (cr2 : Bool) :
    SchedInv g cfg (tr ++ [SchedEvent.complete j ok])
      { scheduled := sched2, running := s.running.erase j, blocks := blocks2,
        failedJobs := failed2, crashed := cr2 } where
  sched_sublist := hsub.trans inv.sched_sublist
  run_nodup := inv.run_nodup.erase _
  run_le := Nat.le_trans (List.length_erase_le _ _) inv.run_le
  sched_fresh := by
    intro k hk
    rw [dispatchCount_snoc_complete]
    exact inv.sched_fresh k (hsub.subset hk)
  run_iff := by
    intro k
    rw [dispatchCount_snoc_complete, completeCount_snoc_complete]
    show k ∈ s.running.erase j ↔ _
    by_cases hkj : k = j
    · subst hkj
      rw [if_pos rfl]
      constructor
      · intro hin
        exact absurd ((List.Nodup.mem_erase_iff inv.run_nodup).mp hin).1 (by simp)
      · rintro ⟨h1, h2⟩
        exact absurd h2 (by omega)
    · rw [if_neg (fun h => hkj h.symm)]
      rw [List.Nodup.mem_erase_iff inv.run_nodup]
      constructor
      · intro h
        exact (inv.run_iff k).mp h.2
      · intro h
        exact ⟨hkj, (inv.run_iff k).mpr h⟩
  disp_le_one := by
    intro k
    rw [dispatchCount_snoc_complete]
    exact inv.disp_le_one k
  comp_le_disp := by
    intro k
    rw [completeCount_snoc_complete, dispatchCount_snoc_complete]
    by_cases hjk : j = k
    · subst hjk
      have h1 := (inv.run_iff j).mp hmem
      rw [if_pos rfl]
      omega
    · rw [if_neg hjk]
      exact inv.comp_le_disp k
  blocks_eq := hblocks2

/-- Every scheduler step preserves the invariant. -/
theorem schedInv_step {g : JobGraph} {cfg : SchedConfig} {tr : List SchedEvent}
    {s s' : SchedState} {e : SchedEvent}
    (inv : SchedInv g cfg tr s) (hst : Step g cfg s e s') :
    SchedInv g cfg (tr ++ [e]) s' := by
  have sched_nodup : s.scheduled.Nodup := inv.sched_sublist.nodup (List.nodup_range _)
  cases hst with
  | dispatch j s hc hmem hblocks hroom =>
    refine
      { sched_sublist := (List.erase_sublist _ _).trans inv.sched_sublist
        run_nodup := ?_
        run_le := ?_
        sched_fresh := ?_
        run_iff := ?_
        disp_le_one := ?_
        comp_le_disp := ?_
        blocks_eq := ?_ }
    · have hjnr : j ∉ s.running := by
        intro hin
        have h1 := ((inv.run_iff j).mp hin).1
        have h2 := inv.sched_fresh j hmem
        omega
      exact List.nodup_cons.mpr ⟨hjnr, inv.run_nodup⟩
    · show (j :: s.running).length ≤ cfg.maxRunning
      rw [List.length_cons]
      omega
    · intro k hk
      have hk2 := (List.Nodup.mem_erase_iff sched_nodup).mp hk
      rw [dispatchCount_snoc_dispatch, if_neg (fun h => hk2.1 h.symm)]
      simpa using inv.sched_fresh k hk2.2
    · intro k
      rw [dispatchCount_snoc_dispatch, completeCount_snoc_dispatch]
      show k ∈ j :: s.running ↔ _
      by_cases hkj : k = j
      · subst hkj
        rw [if_pos rfl]
        have h1 := inv.sched_fresh k hmem
        have h2 := inv.comp_le_disp k
        constructor
        · intro _
          omega
        · intro _
          exact List.mem_cons_self _ _
      · rw [if_neg (fun h => hkj h.symm)]
        rw [List.mem_cons]
        constructor
        · rintro (h | h)
          · exact absurd h hkj
          · simpa using (inv.run_iff k).mp h
        · intro h
          right
          exact (inv.run_iff k).mpr (by omega)
    · intro k
      rw [dispatchCount_snoc_dispatch]
      by_cases hjk : j = k
      · subst hjk
        have h5 := inv.sched_fresh j hmem
        rw [if_pos rfl]
        omega
      · rw [if_neg hjk]
        have h5 := inv.disp_le_one k
        omega
    · intro k
      rw [completeCount_snoc_dispatch, dispatchCount_snoc_dispatch]
      have h6 := inv.comp_le_disp k
      by_cases hjk : j = k
      · rw [if_pos hjk]
        omega
      · rw [if_neg hjk]
        omega
    · intro k hk
      have hcong : (g.blockers k).dedup.countP
          (fun b => releasedIn cfg (tr ++ [SchedEvent.dispatch j]) b) =
          (g.blockers k).dedup.countP (fun b => releasedIn cfg tr b) := by
        apply List.countP_congr
        intro b _
        rw [releasedIn_snoc_dispatch]
      show s.blocks k + _ = _
      rw [hcong]
      exact inv.blocks_eq k hk
  | completeOk j s hc hmem =>
    exact schedInv_step_complete inv hmem (List.Sublist.refl _)
      (blocks_eq_after_release true inv hmem (by rw [Bool.true_or])) _ _
  | completeFailIgnored j s hc hmem hig =>
    exact schedInv_step_complete inv hmem (List.Sublist.refl _)
      (blocks_eq_after_release false inv hmem (by rw [Bool.false_or]; exact hig)) _ _
  | completeFail j s hc hmem hig hnu =>
    exact schedInv_step_complete inv hmem (List.Sublist.refl _)
      (blocks_eq_after_noRelease inv hig) _ _
  | completeFailUnscheduled j s scheduled2 hc hmem hig hkg hbs hun =>
    exact schedInv_step_complete inv hmem
      (unschedule_ok_sublist g _ j _ _ hun)
      (blocks_eq_after_noRelease inv hig) _ _
  | completeFailCrash j s e2 hc hmem hig hkg hbs hun =>
    exact schedInv_step_complete inv hmem (List.Sublist.refl _)
      (blocks_eq_after_noRelease inv hig) _ _

/-- The invariant holds along any execution from any invariant-satisfying
state. -/
theorem exec_inv_aux {g : JobGraph} {cfg : SchedConfig} :
    ∀ {s : SchedState} {tr2 : List SchedEvent} {s2 : SchedState},
      Exec g cfg s tr2 s2 →
      ∀ tr, SchedInv g cfg tr s → SchedInv g cfg (tr ++ tr2) s2 := by
  intro s tr2 s2 hex
  induction hex with
  | nil s => intro tr inv; simpa using inv
  | cons hst hex ih =>
    intro tr inv
    have inv2 := schedInv_step inv hst
    have h3 := ih _ inv2
    simpa using h3

/-- The invariant holds in every state reachable from the initial state. -/
theorem exec_inv {g : JobGraph} {cfg : SchedConfig} {tr : List SchedEvent}
    {s : SchedState} (hex : Exec g cfg (initState g) tr s) :
    SchedInv g cfg tr s := by
  have h := exec_inv_aux hex [] (schedInv_init g cfg)
  simpa using h

theorem exec_append_split {g : JobGraph} {cfg : SchedConfig} :
    ∀ {tr1 tr2 : List SchedEvent} {s s2 : SchedState},
      Exec g cfg s (tr1 ++ tr2) s2 →
      ∃ sm, Exec g cfg s tr1 sm ∧ Exec g cfg sm tr2 s2 := by
  intro tr1
  induction tr1 with
  | nil =>
    intro tr2 s s2 h
    exact ⟨s, Exec.nil s, h⟩
  | cons e tr1 ih =>
    intro tr2 s s2 h
    rw [List.cons_append] at h
    cases h with
    | cons hst hex =>
      obtain ⟨sm, h1, h2⟩ := ih hex
      exact ⟨sm, Exec.cons hst h1, h2⟩

theorem releasedIn_elim {cfg : SchedConfig} {tr : List SchedEvent} {b : Nat}
    (h : releasedIn cfg tr b = true) :
    ∃ ok, SchedEvent.complete b ok ∈ tr ∧ (ok = true ∨ cfg.ignoreErrors = true) := by
  rw [releasedIn, List.any_eq_true] at h
  obtain ⟨e, he, hp⟩ := h
  cases e with
  | dispatch j => simp at hp
  | complete k ok =>
    have h1 := (Bool.and_eq_true _ _).mp hp
    have hk : k = b := of_decide_eq_true h1.1
    subst hk
    refine ⟨ok, he, ?_⟩
    rcases (Bool.or_eq_true _ _).mp h1.2 with h2 | h2
    · exact Or.inl h2
    · exact Or.inr h2

/-- C2 — dependency-order execution: every constructed job is in the
scheduler's pending set at construction time, and along every execution trace a
job is dispatched only in a state whose block count for it is zero, which in
turn requires that every job in its blocking list already completed
(successfully, or with any status under `ignore_errors`) strictly before the
dispatch.  So a job never starts while its block count is positive, and never
before every job it is directly blocked on has completed. -/
theorem dispatch_only_after_blockers_complete (g : JobGraph) (cfg : SchedConfig)
    (tr1 tr2 : List SchedEvent) (j : Nat) (s : SchedState)
    (hex : Exec g cfg (initState g) (tr1 ++ SchedEvent.dispatch j :: tr2) s) :
    (initState g).scheduled = List.range g.numJobs ∧
    ∃ s1, Exec g cfg (initState g) tr1 s1 ∧ s1.blocks j = 0 ∧
      ∀ b ∈ g.blockers j, ∃ ok, SchedEvent.complete b ok ∈ tr1 ∧
        (ok = true ∨ cfg.ignoreErrors = true) := by
  refine ⟨rfl, ?_⟩
  obtain ⟨s1, h1, h2⟩ := exec_append_split hex
  cases h2 with
  | cons hst hex2 =>
    cases hst with
    | dispatch j s1 hc hmem hblocks hroom =>
      refine ⟨s1, h1, hblocks, ?_⟩
      intro b hb
      have inv := exec_inv h1
      have hjlt : j < g.numJobs := by
        have hm := inv.sched_sublist.subset hmem
        simpa [List.mem_range] using hm
      have hbeq := inv.blocks_eq j hjlt
      rw [hblocks, Nat.zero_add] at hbeq
      have hcle : (g.blockers j).dedup.countP (fun b2 => releasedIn cfg tr1 b2) ≤
          (g.blockers j).dedup.length := List.countP_le_length _
      have hdle : (g.blockers j).dedup.length ≤ (g.blockers j).length :=
        (List.dedup_sublist _).length_le
      have hlen : (g.blockers j).dedup.countP (fun b2 => releasedIn cfg tr1 b2) =
          (g.blockers j).dedup.length := by omega
      have hall := List.countP_eq_length.mp hlen
      exact releasedIn_elim (hall b (List.mem_dedup.mpr hb))

/-- A two-job graph: job `1` is blocked on job `0`. -/
def twoJobGraph : JobGraph := ⟨2, fun j => if j = 1 then [0] else []⟩

/-- The default configuration: eight job slots, no `ignore_errors`, no
`keep_going`. -/
def defaultConfig : SchedConfig := ⟨8, false, false⟩

/-- C2 witness: in `twoJobGraph`, the trace that dispatches job `0`, completes
it, and then dispatches job `1` satisfies the dependency-order theorem. -/
theorem dispatch_only_after_blockers_complete_witness :
    (initState twoJobGraph).scheduled = List.range twoJobGraph.numJobs ∧
    ∃ s1, Exec twoJobGraph defaultConfig (initState twoJobGraph)
        [SchedEvent.dispatch 0, SchedEvent.complete 0 true] s1 ∧
      s1.blocks 1 = 0 ∧
      ∀ b ∈ twoJobGraph.blockers 1, ∃ ok,
        SchedEvent.complete b ok ∈ [SchedEvent.dispatch 0, SchedEvent.complete 0 true] ∧
        (ok = true ∨ defaultConfig.ignoreErrors = true) :=
  dispatch_only_after_blockers_complete twoJobGraph defaultConfig
    [SchedEvent.dispatch 0, SchedEvent.complete 0 true] [] 1 _
    (Exec.cons (Step.dispatch 0 _ rfl (by decide) rfl (by decide))
      (Exec.cons (Step.completeOk 0 _ rfl (by decide))
        (Exec.cons (Step.dispatch 1 _ rfl (by decide) rfl (by decide))
          (Exec.nil _))))

/-- C7 — concurrency cap: in every state reachable by `run_scheduled_jobs`, the
running set never holds more than `_m_cRunningJobsMax` jobs, because a job is
dispatched only after `_collect_completed_jobs` freed at least one slot. -/
theorem running_never_exceeds_cap (g : JobGraph) (cfg : SchedConfig)
    (tr : List SchedEvent) (s : SchedState)
    (hex : Exec g cfg (initState g) tr s) :
    s.running.length ≤ cfg.maxRunning :=
  (exec_inv hex).run_le

/-- Three independent jobs and a single job slot. -/
def threeLeafGraph : JobGraph := ⟨3, fun _ => []⟩

/-- A configuration with concurrency cap `1`. -/
def oneSlotConfig : SchedConfig := ⟨1, false, false⟩

/-- The state of `threeLeafGraph` after dispatching job `0`. -/
def oneSlotState : SchedState :=
  { initState threeLeafGraph with
    scheduled := (initState threeLeafGraph).scheduled.erase 0,
    running := 0 :: (initState threeLeafGraph).running }

/-- C7 witness: with three mutually-independent jobs and cap `1`, the state
after one dispatch respects the cap. -/
theorem running_never_exceeds_cap_witness :
    oneSlotState.running.length ≤ oneSlotConfig.maxRunning :=
  running_never_exceeds_cap threeLeafGraph oneSlotConfig [SchedEvent.dispatch 0]
    oneSlotState
    (Exec.cons (Step.dispatch 0 (initState threeLeafGraph) rfl (by decide) rfl (by decide))
      (Exec.nil _))

theorem exec_failedJobs_const_of_ignore {g : JobGraph} {cfg : SchedConfig}
    (hig : cfg.ignoreErrors = true) :
    ∀ {s : SchedState} {tr : List SchedEvent} {s2 : SchedState},
      Exec g cfg s tr s2 → s2.failedJobs = s.failedJobs := by
  intro s tr s2 hex
  induction hex with
  | nil s => rfl
  | cons hst hex ih =>
    rw [ih]
    cases hst with
    | dispatch j s hc hmem hblocks hroom => rfl
    | completeOk j s hc hmem => rfl
    | completeFailIgnored j s hc hmem hig2 => rfl
    | completeFail j s hc hmem hig2 hnu => rw [hig] at hig2; cases hig2
    | completeFailUnscheduled j s sched2 hc hmem hig2 hkg hbs hun =>
      rw [hig] at hig2; cases hig2
    | completeFailCrash j s e2 hc hmem hig2 hkg hbs hun => rfl

/-- C4 amended — under `ignore_errors` a failed job releases its dependents
exactly as a successful one (a failing completion step produces the very same
state a successful completion would), but the failure is NOT counted: the
failed-job tally stays `0` in every reachable state, so the top-level run
returns `0` (`_collect_completed_jobs` is documented to "always return 0" when
`_m_bIgnoreErrors == True`, src/abamake.py:812-813 and 835-838). -/
theorem ignore_errors_releases_but_does_not_count (g : JobGraph) (cfg : SchedConfig)
    (tr : List SchedEvent) (s : SchedState)
    (hig : cfg.ignoreErrors = true)
    (hex : Exec g cfg (initState g) tr s) :
    s.failedJobs = 0 ∧
    ∀ s0 s1 j, Step g cfg s0 (SchedEvent.complete j false) s1 →
      Step g cfg s0 (SchedEvent.complete j true) s1 := by
  constructor
  · rw [exec_failedJobs_const_of_ignore hig hex]
    rfl
  · intro s0 s1 j hst
    cases hst with
    | completeFailIgnored j s0 hc hmem hig2 => exact Step.completeOk j s0 hc hmem
    | completeFail j s0 hc hmem hig2 hnu => rw [hig] at hig2; cases hig2
    | completeFailUnscheduled j s0 sched2 hc hmem hig2 hkg hbs hun =>
      rw [hig] at hig2; cases hig2
    | completeFailCrash j s0 e2 hc hmem hig2 hkg hbs hun =>
      rw [hig] at hig2; cases hig2

/-- A single job with no blockers. -/
def oneJobGraph : JobGraph := ⟨1, fun _ => []⟩

/-- Configuration with `ignore_errors = true`. -/
def ignoreErrorsConfig : SchedConfig := ⟨8, true, false⟩

/-- Final state of the `ignore_errors` counterexample run. -/
def ignoreErrorsFinal : SchedState :=
  { scheduled := [], running := [],
    blocks := release_blocked oneJobGraph 0 (initBlocks oneJobGraph),
    failedJobs := 0, crashed := false }

/-- C4 counterexample: with `ignore_errors = true`, a complete run (empty
pending and running sets at the end) in which job `0`'s process exited non-zero
finishes with a failed-job tally of `0` — the failure is not counted in the
total returned by the top-level run, contradicting the claim that it is. -/
theorem ignore_errors_failure_not_in_tally :
    Exec oneJobGraph ignoreErrorsConfig (initState oneJobGraph)
      [SchedEvent.dispatch 0, SchedEvent.complete 0 false] ignoreErrorsFinal ∧
    ignoreErrorsFinal.scheduled = [] ∧ ignoreErrorsFinal.running = [] ∧
    SchedEvent.complete 0 false ∈
      [SchedEvent.dispatch 0, SchedEvent.complete 0 false] ∧
    ignoreErrorsFinal.failedJobs = 0 := by
  refine ⟨?_, rfl, rfl, by simp, rfl⟩
  exact Exec.cons (Step.dispatch 0 _ rfl (by decide) rfl (by decide))
    (Exec.cons (Step.completeFailIgnored 0 _ rfl (by decide) rfl)
      (Exec.nil _))

/-- C4 witness: the amended `ignore_errors` theorem applied to the one-job
graph along the run that dispatches job `0` and sees it fail. -/
theorem ignore_errors_releases_but_does_not_count_witness :
    ignoreErrorsConfig.ignoreErrors = true ∧ ignoreErrorsFinal.failedJobs = 0 :=
  ⟨rfl,
    (ignore_errors_releases_but_does_not_count oneJobGraph ignoreErrorsConfig
      [SchedEvent.dispatch 0, SchedEvent.complete 0 false] ignoreErrorsFinal rfl
      (Exec.cons (Step.dispatch 0 _ rfl (by decide) rfl (by decide))
        (Exec.cons (Step.completeFailIgnored 0 _ rfl (by decide) rfl)
          (Exec.nil _)))).1⟩

/-- A three-job chain: job `1` is blocked on job `0`, job `2` on job `1`. -/
def chainJobGraph : JobGraph :=
  ⟨3, fun j => if j = 1 then [0] else if j = 2 then [1] else []⟩

/-- Configuration with `keep_going = true`. -/
def keepGoingConfig : SchedConfig := ⟨8, false, true⟩

/-- Final state of the `keep_going` crash run: the run aborted with an uncaught
`AttributeError`, with jobs `1` and `2` still in the pending set. -/
def keepGoingFinal : SchedState :=
  { scheduled := [1, 2], running := [], blocks := initBlocks chainJobGraph,
    failedJobs := 0, crashed := true }

theorem unschedule_chain_eval :
    unschedule_jobs_blocked_by chainJobGraph (chainJobGraph.numJobs + 1)
      (UnschedArg.job 0) [1, 2] = Except.error PyExn.attributeError := by
  have h0 : blockedSet chainJobGraph 0 = [1] := by decide
  have h1 : blockedSet chainJobGraph 1 = [2] := by decide
  show unschedule_jobs_blocked_by chainJobGraph 4 (UnschedArg.job 0) [1, 2] =
    Except.error PyExn.attributeError
  simp only [unschedule_jobs_blocked_by, h0, h1, unschedLoop]
  rfl

/-- C5 — `keep_going` containment is broken by the recursive call at
src/abamake.py:1156, which passes `sjBlocked._m_setBlockedJobs` (a Python set)
instead of `sjBlocked`; the callee's attribute access raises `AttributeError`.
With `keep_going = true` and the failing job blocking a chain of depth two,
`_unschedule_jobs_blocked_by` raises instead of pruning, and the whole run
aborts: jobs `1` and `2` are neither removed nor run, and no tally is
returned. -/
theorem keep_going_unschedule_crashes :
    unschedule_jobs_blocked_by chainJobGraph (chainJobGraph.numJobs + 1)
      (UnschedArg.job 0) [1, 2] = Except.error PyExn.attributeError ∧
    Exec chainJobGraph keepGoingConfig (initState chainJobGraph)
      [SchedEvent.dispatch 0, SchedEvent.complete 0 false] keepGoingFinal ∧
    keepGoingFinal.crashed = true ∧ keepGoingFinal.scheduled = [1, 2] := by
  refine ⟨unschedule_chain_eval, ?_, rfl, rfl⟩
  exact Exec.cons (Step.dispatch 0 _ rfl (by decide) rfl (by decide))
    (Exec.cons
      (Step.completeFailCrash 0 _ PyExn.attributeError rfl (by decide) rfl rfl
        (by decide) unschedule_chain_eval)
      (Exec.nil _))

/-! ### Job-graph construction: `Make.schedule_target_jobs` (src/abamake.py:1109-1142)

Targets are identified by numbers; `tdeps t` is `tgt.dependencies` in iteration
order.  The session state mirrors `Make._m_dictTargetLastScheduledJobs` (an
association list; `dict.get` returns `None` both for a missing key and for a
stored `None`, and the method treats the two alike at src/abamake.py:1118-1119),
the blocking lists of the `ScheduledJob`s constructed so far (a job's id is its
index), and — for the once-per-target property — a count of `Target.build`
invocations per target. -/

/-- The target dependency graph given to one scheduling session. -/
structure TargetGraph where
  numTargets : Nat
  tdeps : Nat → List Nat

/-- Scheduling-session state. -/
structure BuildState where
  lastJobs : List (Nat × Option Nat)
  jobBlockers : List (List Nat)
  buildCalls : Nat → Nat

/-- State at the start of a session. -/
def emptyBuildState : BuildState := ⟨[], [], fun _ => 0⟩

/-- `self._m_dictTargetLastScheduledJobs.get(tgt)` combined with the
`if sj is None` test: only a stored non-`None` job short-circuits. -/
def lookupLast (st : BuildState) (t : Nat) : Option Nat :=
  match st.lastJobs.lookup t with
  | some (some j) => some j
  | _ => none

/-- `Target.build` as implemented by `CxxObjectTarget.build` and
`ExecutableTarget.build` (src/abamake.py:472-483, 507-531): the staleness check
is disabled (`if not iterBlockingJobs and False`), so these variants always
construct one job — blocked on the collected dependency jobs — and return it. -/
def target_build (t : Nat) (blocking : List Nat) (st : BuildState) : Nat × BuildState :=
  (st.jobBlockers.length,
   { st with
     jobBlockers := st.jobBlockers ++ [blocking],
     buildCalls := fun u => if u = t then st.buildCalls u + 1 else st.buildCalls u })

/-- The `for tgtDep in tgt.dependencies` loop of `schedule_target_jobs`
(src/abamake.py:1121-1129): recursively schedule each dependency through the
supplied recursive call, collecting the last job of each dependency that
produced one. -/
def schedule_dep_jobs (sched : Nat → BuildState → Except PyExn (Option Nat × BuildState)) :
    List Nat → BuildState → List Nat → Except PyExn (List Nat × BuildState)
  | [], st, blocking => .ok (blocking, st)
  | d :: ds, st, blocking =>
    match sched d st with
    | .error e => .error e
    | .ok (none, st1) => schedule_dep_jobs sched ds st1 blocking
    | .ok (some j, st1) => schedule_dep_jobs sched ds st1 (blocking ++ [j])

/-- `Make.schedule_target_jobs` (src/abamake.py:1109-1142): return the memoized
last job if present, otherwise schedule all dependencies first (leaves-first),
call the target's `build` with the collected blocking jobs, and memoize the
result.  The fuel models Python's recursion limit. -/
def schedule_target_jobs (g : TargetGraph) :
    Nat → Nat → BuildState → Except PyExn (Option Nat × BuildState)
  | 0, _, _ => .error .recursionError
  | fuel + 1, t, st =>
    match lookupLast st t with
    | some j => .ok (some j, st)
    | none =>
      match schedule_dep_jobs (schedule_target_jobs g fuel) (g.tdeps t) st [] with
      | .error e => .error e
      | .ok (blocking, st1) =>
        let r := target_build t blocking st1
        .ok (some r.1, { r.2 with lastJobs := r.2.lastJobs ++ [(t, some r.1)] })

/-- One session scheduling several root targets in turn, as `_main` does
(src/abamake.py:1227-1229). -/
def schedule_session (g : TargetGraph) (fuel : Nat) :
    List Nat → BuildState → Except PyExn BuildState
  | [], st => .ok st
  | t :: ts, st =>
    match schedule_target_jobs g fuel t st with
    | .error e => .error e
    | .ok (_, st1) => schedule_session g fuel ts st1

/-- Reachability along the target dependency relation. -/
inductive Reach (g : TargetGraph) : Nat → Nat → Prop
  | refl (t : Nat) : Reach g t t
  | step {t d u : Nat} : d ∈ g.tdeps t → Reach g d u → Reach g t u

/-- No dependency edge closes a cycle — what graph validation establishes
before any scheduling happens. -/
def AcyclicDeps (g : TargetGraph) : Prop :=
  ∀ t d, d ∈ g.tdeps t → ¬ Reach g d t

/-- The memoization invariant tying build-call counts to the memo: a target's
`build` ran exactly once when the memo holds a job for it, never otherwise, and
the memo never holds a stored `None` (the build variants of this generation
always return a job). -/
structure BuildMemoInv (st : BuildState) : Prop where
  calls : ∀ t, st.buildCalls t = if (lookupLast st t).isSome then 1 else 0
  stored_some : ∀ p ∈ st.lastJobs, p.2 ≠ none

theorem buildMemoInv_empty : BuildMemoInv emptyBuildState where
  calls := fun _ => rfl
  stored_some := by intro p hp; cases hp

theorem lookup_snoc (l : List (Nat × Option Nat)) (t u : Nat) (v : Option Nat) :
    (l ++ [(t, v)]).lookup u =
      (match l.lookup u with
       | some w => some w
       | none => if u == t then some v else none) := by
  induction l with
  | nil => cases huk : u == t <;> simp [List.lookup, huk]
  | cons p l ih =>
    obtain ⟨k, w⟩ := p
    simp only [List.cons_append, List.lookup]
    cases huk : u == k
    · simpa [huk] using ih
    · simp [huk]

theorem mem_of_lookup_eq_some {l : List (Nat × Option Nat)} {u : Nat} {v : Option Nat}
    (h : l.lookup u = some v) : (u, v) ∈ l := by
  induction l with
  | nil => cases h
  | cons p l ih =>
    obtain ⟨k, w⟩ := p
    simp only [List.lookup] at h
    cases huk : u == k
    · rw [huk] at h
      simp only [Bool.false_eq_true, if_false] at h
      exact List.mem_cons_of_mem _ (ih h)
    · rw [huk] at h
      simp only [if_true] at h
      have hk : u = k := by simpa using huk
      subst hk
      cases h
      exact List.mem_cons_self _ _

/-- If the memo misses `u` and stores no `None`, the underlying lookup misses
too. -/
theorem lookup_none_of_lookupLast_none {st : BuildState} {u : Nat}
    (hs : ∀ p ∈ st.lastJobs, p.2 ≠ none) (h : lookupLast st u = none) :
    st.lastJobs.lookup u = none := by
  cases hq : st.lastJobs.lookup u with
  | none => rfl
  | some v =>
    cases v with
    | none => exact absurd rfl (hs _ (mem_of_lookup_eq_some hq))
    | some j =>
      rw [lookupLast, hq] at h
      cases h

theorem lookupLast_snoc_eq {st st2 : BuildState} {t jid : Nat}
    (hl : st2.lastJobs = st.lastJobs ++ [(t, some jid)]) (u : Nat) :
    lookupLast st2 u =
      (match st.lastJobs.lookup u with
       | some (some j) => some j
       | some none => none
       | none => if u == t then some jid else none) := by
  unfold lookupLast
  rw [hl, lookup_snoc]
  cases hq : st.lastJobs.lookup u with
  | some w => cases w <;> rfl
  | none => cases hut : u == t <;> rfl

theorem lookupLast_snoc_mono {st st2 : BuildState} {t jid u j : Nat}
    (hl : st2.lastJobs = st.lastJobs ++ [(t, some jid)])
    (h : lookupLast st u = some j) : lookupLast st2 u = some j := by
  rw [lookupLast_snoc_eq hl u]
  unfold lookupLast at h
  cases hq : st.lastJobs.lookup u with
  | some w =>
    rw [hq] at h
    cases w with
    | some j2 => cases h; rfl
    | none => cases h
  | none => rw [hq] at h; cases h

theorem lookupLast_snoc_ne {st st2 : BuildState} {t jid u : Nat}
    (hl : st2.lastJobs = st.lastJobs ++ [(t, some jid)]) (hne : u ≠ t) :
    lookupLast st2 u = lookupLast st u := by
  rw [lookupLast_snoc_eq hl u]
  unfold lookupLast
  cases hq : st.lastJobs.lookup u with
  | some w => cases w <;> rfl
  | none =>
    have hbeq : (u == t) = false := by simpa using hne
    rw [hbeq]
    rfl

theorem lookupLast_snoc_hit {st st2 : BuildState} {t jid : Nat}
    (hl : st2.lastJobs = st.lastJobs ++ [(t, some jid)])
    (hmiss : st.lastJobs.lookup t = none) : lookupLast st2 t = some jid := by
  rw [lookupLast_snoc_eq hl t, hmiss]
  simp

/-- The inductive step property of `schedule_target_jobs` at a given fuel: on
success the memoization invariant is preserved, memo entries persist, and every
new memo entry belongs to a target reachable from the scheduled one. -/
def SchedStepOk (g : TargetGraph) (fuel : Nat) : Prop :=
  ∀ t st r st2, BuildMemoInv st →
    schedule_target_jobs g fuel t st = .ok (r, st2) →
    BuildMemoInv st2 ∧
    (∀ u j, lookupLast st u = some j → lookupLast st2 u = some j) ∧
    (∀ u, lookupLast st u = none → lookupLast st2 u ≠ none → Reach g t u)

theorem schedule_dep_jobs_inv (g : TargetGraph) (fuel : Nat) (hs : SchedStepOk g fuel) :
    ∀ (ds : List Nat) (st : BuildState) (acc r : List Nat) (st2 : BuildState),
      BuildMemoInv st →
      schedule_dep_jobs (schedule_target_jobs g fuel) ds st acc = .ok (r, st2) →
      BuildMemoInv st2 ∧
      (∀ u j, lookupLast st u = some j → lookupLast st2 u = some j) ∧
      (∀ u, lookupLast st u = none → lookupLast st2 u ≠ none → ∃ d ∈ ds, Reach g d u) := by
  intro ds
  induction ds with
  | nil =>
    intro st acc r st2 hinv h
    simp only [schedule_dep_jobs] at h
    cases h
    exact ⟨hinv, fun u j hj => hj, fun u hn hs2 => absurd hn hs2⟩
  | cons d ds ih =>
    intro st acc r st2 hinv h
    simp only [schedule_dep_jobs] at h
    cases hd : schedule_target_jobs g fuel d st with
    | error e => rw [hd] at h; cases h
    | ok pr =>
      obtain ⟨oj, st1⟩ := pr
      rw [hd] at h
      have h1 := hs d st oj st1 hinv hd
      cases oj with
      | none =>
        have h2 := ih st1 acc r st2 h1.1 h
        refine ⟨h2.1, fun u j hj => h2.2.1 u j (h1.2.1 u j hj), ?_⟩
        intro u hn hs2
        cases hq : lookupLast st1 u with
        | none =>
          obtain ⟨d2, hd2, hr⟩ := h2.2.2 u hq hs2
          exact ⟨d2, List.mem_cons_of_mem _ hd2, hr⟩
        | some j2 =>
          exact ⟨d, List.mem_cons_self _ _, h1.2.2 u hn (by rw [hq]; simp)⟩
      | some j =>
        have h2 := ih st1 (acc ++ [j]) r st2 h1.1 h
        refine ⟨h2.1, fun u j2 hj => h2.2.1 u j2 (h1.2.1 u j2 hj), ?_⟩
        intro u hn hs2
        cases hq : lookupLast st1 u with
        | none =>
          obtain ⟨d2, hd2, hr⟩ := h2.2.2 u hq hs2
          exact ⟨d2, List.mem_cons_of_mem _ hd2, hr⟩
        | some j2 =>
          exact ⟨d, List.mem_cons_self _ _, h1.2.2 u hn (by rw [hq]; simp)⟩

theorem schedule_target_jobs_inv (g : TargetGraph) (hacyc : AcyclicDeps g) :
    ∀ fuel, SchedStepOk g fuel := by
  intro fuel
  induction fuel with
  | zero =>
    intro t st r st2 hinv h
    simp only [schedule_target_jobs] at h
    cases h
  | succ fuel ih =>
    intro t st r st2 hinv h
    simp only [schedule_target_jobs] at h
    cases hlu : lookupLast st t with
    | some j =>
      rw [hlu] at h
      cases h
      exact ⟨hinv, fun u j2 hj => hj, fun u hn hs2 => absurd hn hs2⟩
    | none =>
      rw [hlu] at h
      cases hdep : schedule_dep_jobs (schedule_target_jobs g fuel) (g.tdeps t) st [] with
      | error e => rw [hdep] at h; cases h
      | ok pr =>
        obtain ⟨blocking, st1⟩ := pr
        rw [hdep] at h
        have h1 := schedule_dep_jobs_inv g fuel ih (g.tdeps t) st [] blocking st1 hinv hdep
        cases h
        have hst1t : lookupLast st1 t = none := by
          cases hq : lookupLast st1 t with
          | none => rfl
          | some j2 =>
            obtain ⟨d, hd, hr⟩ := h1.2.2 t hlu (by rw [hq]; simp)
            exact absurd hr (hacyc t d hd)
        have hlk : st1.lastJobs.lookup t = none :=
          lookup_none_of_lookupLast_none h1.1.stored_some hst1t
        have hl : ({ (target_build t blocking st1).2 with
            lastJobs := (target_build t blocking st1).2.lastJobs ++
              [(t, some (target_build t blocking st1).1)] } : BuildState).lastJobs =
            st1.lastJobs ++ [(t, some st1.jobBlockers.length)] := rfl
        refine ⟨⟨?_, ?_⟩, ?_, ?_⟩
        · intro u
          by_cases hut : u = t
          · subst hut
            rw [lookupLast_snoc_hit hl hlk]
            show (if u = u then st1.buildCalls u + 1 else st1.buildCalls u) = 1
            rw [if_pos rfl]
            have hc := h1.1.calls u
            unfold lookupLast at hc
            rw [hlk] at hc
            simp only [Option.isSome_none, Bool.false_eq_true, if_false] at hc
            omega
          · rw [lookupLast_snoc_ne hl hut]
            show (if u = t then st1.buildCalls u + 1 else st1.buildCalls u) = _
            rw [if_neg hut]
            exact h1.1.calls u
        · intro p hp
          rw [hl] at hp
          rcases List.mem_append.mp hp with hp1 | hp1
          · exact h1.1.stored_some p hp1
          · rcases List.mem_singleton.mp hp1 with rfl
            simp
        · intro u j hj
          exact lookupLast_snoc_mono hl (h1.2.1 u j hj)
        · intro u hn hs2
          by_cases hut : u = t
          · subst hut
            exact Reach.refl u
          · rw [lookupLast_snoc_ne hl hut] at hs2
            cases hq : lookupLast st1 u with
            | none => rw [hq] at hs2; exact absurd rfl hs2
            | some j2 =>
              obtain ⟨d, hd, hr⟩ := h1.2.2 u hn (by rw [hq]; simp)
              exact Reach.step hd hr

theorem schedule_session_inv (g : TargetGraph) (hacyc : AcyclicDeps g) (fuel : Nat) :
    ∀ (roots : List Nat) (st st2 : BuildState), BuildMemoInv st →
      schedule_session g fuel roots st = .ok st2 → BuildMemoInv st2 := by
  intro roots
  induction roots with
  | nil =>
    intro st st2 hinv h
    simp only [schedule_session] at h
    cases h
    exact hinv
  | cons t ts ih =>
    intro st st2 hinv h
    simp only [schedule_session] at h
    cases hd : schedule_target_jobs g fuel t st with
    | error e => rw [hd] at h; cases h
    | ok pr =>
      obtain ⟨oj, st1⟩ := pr
      rw [hd] at h
      exact ih st1 st2 ((schedule_target_jobs_inv g hacyc fuel t st oj st1 hinv hd).1) h

/-- The diamond graph: targets `B = 1` and `C = 2` both depend on `A = 0`. -/
def diamondGraph : TargetGraph := ⟨3, fun t => if t = 0 then [] else [0]⟩

theorem reach_diamond_from_zero : ∀ {t u : Nat}, Reach diamondGraph t u → t = 0 → u = 0 := by
  intro t u h
  induction h with
  | refl t => intro h0; exact h0
  | step hd hr ih =>
    intro h0
    subst h0
    simp [diamondGraph] at hd

theorem diamond_acyclic : AcyclicDeps diamondGraph := by
  intro t d hd hr
  by_cases ht : t = 0
  · subst ht
    simp [diamondGraph] at hd
  · have hd0 : d = 0 := by simpa [diamondGraph, ht] using hd
    subst hd0
    exact ht (reach_diamond_from_zero hr rfl)

/-- C3 — shared dependency scheduled once: `schedule_target_jobs` is memoized
by Target identity.  Concretely, scheduling a session for roots `{B, C}` where
both depend on `A` constructs exactly three jobs — one chain (of length one)
for `A` (job `0`), with `B`'s and `C`'s first jobs (`1` and `2`) both blocked
on `A`'s terminal job — and invokes `A`'s `build` exactly once.  In general,
over any session on an acyclic graph, every target's `build` is invoked at most
once, however many paths reach it. -/
theorem schedule_target_jobs_memoized :
    (match schedule_session diamondGraph 3 [1, 2] emptyBuildState with
     | .ok st => some (st.jobBlockers, st.lastJobs, st.buildCalls 0)
     | .error _ => none) =
      some ([[], [0], [0]], [(0, some 0), (1, some 1), (2, some 2)], 1) ∧
    (∀ (g : TargetGraph) (fuel : Nat) (roots : List Nat) (st2 : BuildState),
      AcyclicDeps g →
      schedule_session g fuel roots emptyBuildState = .ok st2 →
      ∀ u, st2.buildCalls u ≤ 1) := by
  constructor
  · rfl
  · intro g fuel roots st2 hacyc hses u
    have hinv := schedule_session_inv g hacyc fuel roots emptyBuildState st2
      buildMemoInv_empty hses
    rw [hinv.calls u]
    by_cases hq : (lookupLast st2 u).isSome <;> simp [hq]

/-- Build-call count of target `u` after the diamond session. -/
def diamondBuildCalls (u : Nat) : Nat :=
  match schedule_session diamondGraph 3 [1, 2] emptyBuildState with
  | .ok st => st.buildCalls u
  | .error _ => 0

/-- C3 witness: the general once-per-target bound instantiated at the diamond
session. -/
theorem schedule_target_jobs_memoized_witness :
    AcyclicDeps diamondGraph ∧ diamondBuildCalls 0 ≤ 1 := by
  refine ⟨diamond_acyclic, ?_⟩
  obtain ⟨st2, hst2⟩ : ∃ st2, schedule_session diamondGraph 3 [1, 2] emptyBuildState =
      .ok st2 := ⟨_, rfl⟩
  have h := schedule_target_jobs_memoized.2 diamondGraph 3 [1, 2] st2 diamond_acyclic hst2 0
  simpa [diamondBuildCalls, hst2] using h

/-! ### Target build variants and the no-op rebuild -/

/-- `CxxObjectTarget.build` of the abamake.py generation (src/abamake.py:472-483).
Its staleness check is disabled — `if not iterBlockingJobs and False: return
None` never takes the early return — so the compiler's `schedule_jobs` is
always invoked and a job always scheduled.  The embedding records the blocking
jobs handed to the tool; `none` would mean "already current, no job". -/
def cxxObjectTarget_build (blockingJobs : Option (List Nat)) : Option (Option (List Nat)) :=
  if (match blockingJobs with
      | none => true
      | some l => l.isEmpty) && false then
    none
  else
    some blockingJobs

/-- `ProcessedSourceTarget.build` of the abamake/target.py generation
(src/abamake/target.py:217-227): consult `_is_build_needed` with the output and
source file as the files to check; return `None` when no build is needed,
otherwise the arguments handed to the tool's `schedule_jobs` (the blocking jobs
and the changed files). -/
def processedSourceTarget_build (metadataChanged : List Nat → Option (List Nat))
    (forceBuild : Bool) (blockingJobs : List Nat) (filePath sourceFilePath : Nat) :
    Option (List Nat × Option (List Nat)) :=
  match is_build_needed metadataChanged forceBuild blockingJobs
      [filePath, sourceFilePath] with
  | (false, _) => none
  | (true, changedFiles) => some (blockingJobs, changedFiles)

/-- No step can be taken when no job was scheduled: a run over an empty job
graph performs no events and tallies zero failures. -/
theorem exec_from_empty {g : JobGraph} {cfg : SchedConfig} {tr : List SchedEvent}
    {s : SchedState} (hg : g.numJobs = 0)
    (h : Exec g cfg (initState g) tr s) : s.failedJobs = 0 ∧ tr = [] := by
  cases h with
  | nil => exact ⟨rfl, rfl⟩
  | cons hst hex =>
    exfalso
    cases hst <;> simp_all [initState]

/-- C9 counterexample: `CxxObjectTarget.build` with no blocking jobs — the
situation of a second, unchanged build — still returns a job (the metadata
store is not even consulted), so a second `build()` over a target set
containing a C++ object target schedules one job per such target, not zero. -/
theorem cxxObjectTarget_build_always_schedules :
    cxxObjectTarget_build none = some none ∧ cxxObjectTarget_build none ≠ none := by
  constructor <;> decide

/-- C9 amended — the no-op rebuild holds for the build variants that implement
the staleness check: with no dependency jobs scheduled, no changes reported by
the metadata store and no force flag, `ProcessedSourceTarget.build` returns
`None` (schedules zero jobs), and running a session with no scheduled jobs
performs no events and returns zero failed jobs.  (`CxxObjectTarget.build` of
src/abamake.py instead schedules unconditionally; see the counterexample.) -/
theorem idempotent_noop_rebuild_amended (metadataChanged : List Nat → Option (List Nat))
    (filePath sourceFilePath : Nat) (g : JobGraph) (cfg : SchedConfig)
    (tr : List SchedEvent) (s : SchedState)
    (hnochange : changedTruthy (metadataChanged [filePath, sourceFilePath]) = false)
    (hg : g.numJobs = 0)
    (hex : Exec g cfg (initState g) tr s) :
    processedSourceTarget_build metadataChanged false [] filePath sourceFilePath = none ∧
    s.failedJobs = 0 ∧ tr = [] := by
  have h2 := exec_from_empty hg hex
  refine ⟨?_, h2.1, h2.2⟩
  unfold processedSourceTarget_build is_build_needed
  simp [hnochange]

/-- The empty job graph. -/
def emptyJobGraph : JobGraph := ⟨0, fun _ => []⟩

/-- C9 witness: the amended theorem at a concrete no-change metadata oracle and
the empty job graph. -/
theorem idempotent_noop_rebuild_amended_witness :
    changedTruthy ((fun _ => (none : Option (List Nat))) [0, 1]) = false ∧
    emptyJobGraph.numJobs = 0 ∧
    (processedSourceTarget_build (fun _ => none) false [] 0 1 = none ∧
      (initState emptyJobGraph).failedJobs = 0 ∧ ([] : List SchedEvent) = []) :=
  ⟨rfl, rfl, idempotent_noop_rebuild_amended (fun _ => none) 0 1 emptyJobGraph
    defaultConfig [] _ rfl rfl (Exec.nil _)⟩

/-! ### `Core.build_targets` and the metadata write (src/comk/core.py:184-213) -/

/-- Observable actions of one `build_targets` attempt. -/
inductive BuildEvent where
  | depBuild (i : Nat)
  | startBuild (t : Nat)
  | runJobs
  | metadataWrite
deriving DecidableEq

/-- `Core.build_targets` (src/comk/core.py:184-213).  The `try` block —
building each external dependency, `start_build` on each target,
`job_runner.run()` — is abstracted by the events it emits and its outcome (the
runner's failed-job count, or a raised exception).  The `finally` clause then
writes the metadata store unless `dry_run` is set (`if not self._dry_run:
self._metadata.write()`), after which the outcome propagates: `True` exactly
when no job failed, or the exception re-raised. -/
def build_targets {ε : Type} (dryRun : Bool) (tryEvents : List BuildEvent)
    (tryOutcome : Except ε Nat) : Except ε Bool × List BuildEvent :=
  ((match tryOutcome with
    | .ok failedJobs => .ok (failedJobs == 0)
    | .error e => .error e),
   tryEvents ++ (if dryRun then [] else [BuildEvent.metadataWrite]))

/-- C8 amended — on every non-dry-run build attempt the metadata store is
written exactly once, as the last action, whether the attempt succeeds or
raises; with `dry_run` set it is not written at all (see the counterexample).
The try-block itself never writes (the write happens only in the `finally`
clause), which the hypothesis records. -/
theorem metadata_write_once_unless_dry_run {ε : Type} (tryEvents : List BuildEvent)
    (tryOutcome : Except ε Nat)
    (hnw : BuildEvent.metadataWrite ∉ tryEvents) :
    (build_targets false tryEvents tryOutcome).2.count BuildEvent.metadataWrite = 1 ∧
    (build_targets false tryEvents tryOutcome).2 =
      tryEvents ++ [BuildEvent.metadataWrite] ∧
    (∀ e : ε, tryOutcome = .error e →
      (build_targets false tryEvents tryOutcome).1 = .error e) := by
  refine ⟨?_, rfl, ?_⟩
  · simp [build_targets, List.count_append, List.count_eq_zero.mpr hnw]
  · intro e he
    simp [build_targets, he]

/-- C8 witness: a build attempt whose try block raises after two actions still
writes the metadata store exactly once, at the end. -/
theorem metadata_write_once_unless_dry_run_witness :
    BuildEvent.metadataWrite ∉ [BuildEvent.startBuild 0, BuildEvent.runJobs] ∧
    ((build_targets false [BuildEvent.startBuild 0, BuildEvent.runJobs]
        (Except.error (7 : Nat))).2.count BuildEvent.metadataWrite = 1 ∧
      (build_targets false [BuildEvent.startBuild 0, BuildEvent.runJobs]
        (Except.error (7 : Nat))).2 =
        [BuildEvent.startBuild 0, BuildEvent.runJobs] ++ [BuildEvent.metadataWrite] ∧
      (∀ e : Nat, (Except.error (7 : Nat) : Except Nat Nat) = .error e →
        (build_targets false [BuildEvent.startBuild 0, BuildEvent.runJobs]
          (Except.error (7 : Nat))).1 = .error e)) :=
  ⟨by decide, metadata_write_once_unless_dry_run _ _ (by decide)⟩

/-- C8 counterexample: a `dry_run` build attempt writes the metadata store zero
times, not exactly once — `build_targets` guards the `finally`-clause write
with `if not self._dry_run`. -/
theorem build_targets_dry_run_no_write :
    (build_targets true [BuildEvent.startBuild 0, BuildEvent.runJobs]
      (Except.ok 0 : Except Nat Nat)).2.count BuildEvent.metadataWrite = 0 := by
  decide

/-! ### Graph validation: `Core.validate_dependency_graph` and
`Core._validate_dependency_subtree` (src/comk/core.py:549-597)

Targets are numbers; `deps t` is `get_dependencies(targets_only=True)` in
iteration order and `targets` is `Core._targets` in iteration order.  The
Python scan `for i, dependent_target in enumerate(dependents): if
dependent_target is dependency_target: raise ... dependents[i:]` finds the
first ancestor equal to the dependency and reports the ancestor-stack slice
from it; `cycle_slice` returns that slice directly. -/

/-- The target graph handed to validation. -/
structure DepGraph where
  targets : List Nat
  deps : Nat → List Nat

/-- Result of validation: the updated validated set, a detected cycle
(`DependencyCycleError`), or exhaustion of the recursion bound. -/
inductive VRes where
  | ok (validated : List Nat)
  | cycleFound (cycle : List Nat)
  | fuelOut
deriving DecidableEq

/-- Scan the ancestor stack for the dependency `d`; on the first match return
the stack slice from the match to the top (`dependents[i:]`). -/
def cycle_slice (d : Nat) : List Nat → Option (List Nat)
  | [] => none
  | x :: xs => if x = d then some (x :: xs) else cycle_slice d xs

/-- The `for dependency_target in sub_root_target.get_dependencies(...)` loop
of `_validate_dependency_subtree` (src/comk/core.py:583-594): for each
dependency, first scan the ancestor stack for a back edge (raising the cycle on
a match), then recurse — through the supplied recursion step — unless the
dependency's subtree is already validated; completing the loop validates the
sub-root (src/comk/core.py:595-597 appends it to the validated set). -/
def validate_deps (vsub : Nat → List Nat → List Nat → VRes) :
    List Nat → List Nat → List Nat → Nat → VRes
  | [], _, validated, root => .ok (validated ++ [root])
  | d :: ds, dependents, validated, root =>
    match cycle_slice d dependents with
    | some c => .cycleFound c
    | none =>
      if d ∈ validated then
        validate_deps vsub ds dependents validated root
      else
        match vsub d dependents validated with
        | .ok validated2 => validate_deps vsub ds dependents validated2 root
        | other => other

/-- `Core._validate_dependency_subtree` (src/comk/core.py:566-597): push the
sub-root onto the ancestor stack, then run the dependency loop.  The fuel
bounds the recursion depth for Lean's sake only; the Python recursion is
bounded by the stack growing one distinct target per level. -/
def validate_subtree (g : DepGraph) : Nat → Nat → List Nat → List Nat → VRes
  | 0, _, _, _ => .fuelOut
  | fuel + 1, root, dependents, validated =>
    validate_deps (validate_subtree g fuel) (g.deps root) (dependents ++ [root])
      validated root

/-- The `for target in self._targets` loop of `validate_dependency_graph`
(src/comk/core.py:558-564): validate the subtree of each not-yet-validated
target with an empty ancestor stack. -/
def validate_loop (g : DepGraph) : List Nat → List Nat → VRes
  | [], validated => .ok validated
  | t :: ts, validated =>
    if t ∈ validated then
      validate_loop g ts validated
    else
      match validate_subtree g (g.targets.length + 1) t [] validated with
      | .ok validated2 => validate_loop g ts validated2
      | other => other

/-- `Core.validate_dependency_graph` (src/comk/core.py:549-564). -/
def validate_dependency_graph (g : DepGraph) : VRes :=
  validate_loop g g.targets []

/-- A list of targets forms a dependency cycle when each element is followed by
one of its dependencies and the first element is a dependency of the last —
the cycle in dependency order, as `DependencyCycleError` reports it. -/
def IsDepCycle (g : DepGraph) : List Nat → Prop
  | [] => False
  | a :: rest => List.Chain (fun x y => y ∈ g.deps x) a (rest ++ [a])

/-- Every dependency of a target is itself a recorded target (the project
parser registers every constructed target in `Core._targets`). -/
def Closed (g : DepGraph) : Prop :=
  ∀ t ∈ g.targets, ∀ d ∈ g.deps t, d ∈ g.targets

/-- No list of targets forms a dependency cycle. -/
def NoTargetCycle (g : DepGraph) : Prop :=
  ∀ c : List Nat, (∀ x ∈ c, x ∈ g.targets) → ¬ IsDepCycle g c

/-- The two-target cycle A = 0 → B = 1 → A. -/
def twoCycleGraph : DepGraph :=
  ⟨[0, 1], fun t => if t = 0 then [1] else if t = 1 then [0] else []⟩

theorem cycle_slice_eq_some {d : Nat} :
    ∀ {l c : List Nat}, cycle_slice d l = some c →
      ∃ pre tail, l = pre ++ c ∧ c = d :: tail := by
  intro l
  induction l with
  | nil => intro c h; cases h
  | cons x xs ih =>
    intro c h
    simp only [cycle_slice] at h
    by_cases hx : x = d
    · rw [if_pos hx] at h
      cases h
      subst hx
      exact ⟨[], xs, rfl, rfl⟩
    · rw [if_neg hx] at h
      obtain ⟨pre, tail, heq, hcd⟩ := ih h
      exact ⟨x :: pre, tail, by rw [List.cons_append, heq], hcd⟩

theorem cycle_slice_eq_none {d : Nat} :
    ∀ {l : List Nat}, cycle_slice d l = none → d ∉ l := by
  intro l
  induction l with
  | nil => intro _ h; cases h
  | cons x xs ih =>
    intro h hmem
    simp only [cycle_slice] at h
    by_cases hx : x = d
    · rw [if_pos hx] at h; cases h
    · rw [if_neg hx] at h
      rcases List.mem_cons.mp hmem with rfl | h2
      · exact hx rfl
      · exact ih h h2

theorem chain_snoc {R : Nat → Nat → Prop} :
    ∀ {l : List Nat} {a b : Nat}, List.Chain R a l →
      (∀ y, (a :: l).getLast? = some y → R y b) →
      List.Chain R a (l ++ [b]) := by
  intro l
  induction l with
  | nil =>
    intro a b _ h
    exact List.Chain.cons (h a rfl) List.Chain.nil
  | cons x xs ih =>
    intro a b hch hl
    cases hch with
    | cons hax hxl =>
      refine List.Chain.cons hax (ih hxl ?_)
      intro y hy
      exact hl y hy

theorem validate_deps_cycle (g : DepGraph)
    {vsub : Nat → List Nat → List Nat → VRes}
    (hvs : ∀ root2 dependents2 validated2 c2,
      List.Chain' (fun x y => y ∈ g.deps x) (dependents2 ++ [root2]) →
      (∀ x ∈ dependents2 ++ [root2], x ∈ g.targets) →
      vsub root2 dependents2 validated2 = .cycleFound c2 →
      IsDepCycle g c2 ∧ ∀ x ∈ c2, x ∈ g.targets) :
    ∀ (ds : List Nat) (dependents validated : List Nat) (root : Nat) (c : List Nat),
      List.Chain' (fun x y => y ∈ g.deps x) dependents →
      dependents.getLast? = some root →
      (∀ d ∈ ds, d ∈ g.deps root) →
      (∀ x ∈ dependents, x ∈ g.targets) →
      (∀ d ∈ ds, d ∈ g.targets) →
      validate_deps vsub ds dependents validated root = .cycleFound c →
      IsDepCycle g c ∧ ∀ x ∈ c, x ∈ g.targets := by
  intro ds
  induction ds with
  | nil =>
    intro dependents validated root c _ _ _ _ _ h
    simp only [validate_deps] at h
    cases h
  | cons d ds ih =>
    intro dependents validated root c hchain hlast hds hdt hdst h
    simp only [validate_deps] at h
    cases hcs : cycle_slice d dependents with
    | some c2 =>
      rw [hcs] at h
      cases h
      obtain ⟨pre, tail, heq, hcd⟩ := cycle_slice_eq_some hcs
      subst hcd
      rw [heq] at hchain hlast hdt
      have hch2 : List.Chain' (fun x y => y ∈ g.deps x) (d :: tail) :=
        (List.chain'_append.mp hchain).2.1
      have hlast2 : (d :: tail).getLast? = some root := by
        rw [List.getLast?_append] at hlast
        cases hq : (d :: tail).getLast? with
        | none => simp at hq
        | some z =>
          rw [hq] at hlast
          have hz : z = root := by simpa using hlast
          rw [hz]
      refine ⟨?_, ?_⟩
      · show List.Chain (fun x y => y ∈ g.deps x) d (tail ++ [d])
        refine chain_snoc hch2 ?_
        intro y hy
        rw [hlast2] at hy
        cases hy
        exact hds d (List.mem_cons_self _ _)
      · intro x hx
        exact hdt x (List.mem_append_right _ hx)
    | none =>
      rw [hcs] at h
      by_cases hdv : d ∈ validated
      · rw [if_pos hdv] at h
        exact ih dependents validated root c hchain hlast
          (fun d2 hd2 => hds d2 (List.mem_cons_of_mem _ hd2)) hdt
          (fun d2 hd2 => hdst d2 (List.mem_cons_of_mem _ hd2)) h
      · rw [if_neg hdv] at h
        cases hv : vsub d dependents validated with
        | ok validated2 =>
          rw [hv] at h
          exact ih dependents validated2 root c hchain hlast
            (fun d2 hd2 => hds d2 (List.mem_cons_of_mem _ hd2)) hdt
            (fun d2 hd2 => hdst d2 (List.mem_cons_of_mem _ hd2)) h
        | cycleFound c2 =>
          rw [hv] at h
          cases h
          refine hvs d dependents validated c ?_ ?_ hv
          · rw [List.chain'_append]
            refine ⟨hchain, List.chain'_singleton _, ?_⟩
            intro x hx y hy
            rw [hlast] at hx
            cases hx
            cases hy
            exact hds d (List.mem_cons_self _ _)
          · intro x hx
            rcases List.mem_append.mp hx with h1 | h1
            · exact hdt x h1
            · rcases List.mem_singleton.mp h1 with rfl
              exact hdst x (List.mem_cons_self _ _)
        | fuelOut => rw [hv] at h; cases h

theorem validate_subtree_cycle (g : DepGraph) (hc : Closed g) :
    ∀ (fuel : Nat) (root : Nat) (dependents validated : List Nat) (c : List Nat),
      List.Chain' (fun x y => y ∈ g.deps x) (dependents ++ [root]) →
      (∀ x ∈ dependents ++ [root], x ∈ g.targets) →
      validate_subtree g fuel root dependents validated = .cycleFound c →
      IsDepCycle g c ∧ ∀ x ∈ c, x ∈ g.targets := by
  intro fuel
  induction fuel with
  | zero =>
    intro root dependents validated c _ _ h
    simp only [validate_subtree] at h
    cases h
  | succ fuel ih =>
    intro root dependents validated c hchain ht h
    simp only [validate_subtree] at h
    have hroott : root ∈ g.targets := ht root (List.mem_append_right _ (List.mem_singleton.mpr rfl))
    refine validate_deps_cycle g ?_ (g.deps root) (dependents ++ [root]) validated root c
      hchain ?_ (fun d hd => hd) ht (fun d hd => hc root hroott d hd) h
    · intro root2 dependents2 validated2 c2 hch2 ht2 hv
      exact ih root2 dependents2 validated2 c2 hch2 ht2 hv
    · rw [List.getLast?_append]
      rfl

theorem validate_loop_cycle (g : DepGraph) (hc : Closed g) :
    ∀ (ts validated : List Nat) (c : List Nat),
      (∀ t ∈ ts, t ∈ g.targets) →
      validate_loop g ts validated = .cycleFound c →
      IsDepCycle g c ∧ ∀ x ∈ c, x ∈ g.targets := by
  intro ts
  induction ts with
  | nil =>
    intro validated c _ h
    simp only [validate_loop] at h
    cases h
  | cons t ts ih =>
    intro validated c hts h
    simp only [validate_loop] at h
    by_cases htv : t ∈ validated
    · rw [if_pos htv] at h
      exact ih validated c (fun t2 ht2 => hts t2 (List.mem_cons_of_mem _ ht2)) h
    · rw [if_neg htv] at h
      cases hv : validate_subtree g (g.targets.length + 1) t [] validated with
      | ok validated2 =>
        rw [hv] at h
        exact ih validated2 c (fun t2 ht2 => hts t2 (List.mem_cons_of_mem _ ht2)) h
      | cycleFound c2 =>
        rw [hv] at h
        cases h
        refine validate_subtree_cycle g hc _ t [] validated c ?_ ?_ hv
        · exact List.chain'_singleton _
        · intro x hx
          rcases List.mem_singleton.mp (by simpa using hx) with rfl
          exact hts x (List.mem_cons_self _ _)
      | fuelOut => rw [hv] at h; cases h

/-- Shape of the validated set maintained by the algorithm: a target is
appended only after every one of its dependencies is already present. -/
inductive TopoList (g : DepGraph) : List Nat → Prop
  | nil : TopoList g []
  | snoc {v : List Nat} {t : Nat} :
      TopoList g v → (∀ d ∈ g.deps t, d ∈ v) → TopoList g (v ++ [t])

theorem topoList_rank {g : DepGraph} :
    ∀ {v : List Nat}, TopoList g v →
      ∀ x ∈ v, ∀ d ∈ g.deps x, d ∈ v ∧ v.indexOf d < v.indexOf x := by
  intro v hv
  induction hv with
  | nil => intro x hx; cases hx
  | snoc hv hdeps ih =>
    rename_i v t
    intro x hx d hd
    have hstep : x ∈ v → d ∈ v ++ [t] ∧ (v ++ [t]).indexOf d < (v ++ [t]).indexOf x := by
      intro hxv
      obtain ⟨hdv, hlt⟩ := ih x hxv d hd
      refine ⟨List.mem_append_left _ hdv, ?_⟩
      rw [List.indexOf_append_of_mem hdv, List.indexOf_append_of_mem hxv]
      exact hlt
    rcases List.mem_append.mp hx with hxv | hxt
    · exact hstep hxv
    · rcases List.mem_singleton.mp hxt with rfl
      by_cases htv : x ∈ v
      · exact hstep htv
      · have hdv : d ∈ v := hdeps d hd
        refine ⟨List.mem_append_left _ hdv, ?_⟩
        rw [List.indexOf_append_of_mem hdv, List.indexOf_append_of_not_mem htv]
        have h1 : v.indexOf d < v.length := List.indexOf_lt_length.mpr hdv
        omega

theorem chain_rank_lt {g : DepGraph} {v : List Nat} (hv : TopoList g v) :
    ∀ (l : List Nat) (x : Nat), List.Chain (fun p q => q ∈ g.deps p) x l →
      (∀ z ∈ x :: l, z ∈ v) → l ≠ [] →
      ∀ y, (x :: l).getLast? = some y → v.indexOf y < v.indexOf x := by
  intro l
  induction l with
  | nil => intro x _ _ hne; exact absurd rfl hne
  | cons b l ih =>
    intro x hch hmem _ y hy
    cases hch with
    | cons hxb hbl =>
      have hb_lt : v.indexOf b < v.indexOf x :=
        (topoList_rank hv x (hmem x (List.mem_cons_self _ _)) b hxb).2
      by_cases hl : l = []
      · subst hl
        have hyb : some b = some y := hy
        cases hyb
        exact hb_lt
      · have hy2 : (b :: l).getLast? = some y := by
          rw [← List.getLast?_cons_cons]
          exact hy
        have h2 := ih b hbl (fun z hz => hmem z (List.mem_cons_of_mem _ hz)) hl y hy2
        exact Nat.lt_trans h2 hb_lt

theorem topoList_no_cycle {g : DepGraph} {v : List Nat} (hv : TopoList g v) :
    ∀ c, (∀ x ∈ c, x ∈ v) → ¬ IsDepCycle g c := by
  intro c hcv hcyc
  cases c with
  | nil => exact hcyc
  | cons a rest =>
    have hlast : (a :: (rest ++ [a])).getLast? = some a := by
      rw [show a :: (rest ++ [a]) = (a :: rest) ++ [a] from rfl, List.getLast?_append]
      rfl
    have hne : rest ++ [a] ≠ [] := by simp
    have hmem : ∀ z ∈ a :: (rest ++ [a]), z ∈ v := by
      intro z hz
      rcases List.mem_cons.mp hz with rfl | h2
      · exact hcv z (List.mem_cons_self _ _)
      · rcases List.mem_append.mp h2 with h3 | h3
        · exact hcv z (List.mem_cons_of_mem _ h3)
        · rcases List.mem_singleton.mp h3 with rfl
          exact hcv z (List.mem_cons_self _ _)
    exact absurd (chain_rank_lt hv (rest ++ [a]) a hcyc hmem hne a hlast)
      (Nat.lt_irrefl _)

theorem validate_deps_ok (g : DepGraph)
    {vsub : Nat → List Nat → List Nat → VRes}
    (hvs : ∀ root2 dependents2 validated2 v2,
      TopoList g validated2 →
      vsub root2 dependents2 validated2 = .ok v2 →
      TopoList g v2 ∧ validated2 ⊆ v2 ∧ root2 ∈ v2) :
    ∀ (ds dependents validated : List Nat) (root : Nat) (v2 : List Nat),
      TopoList g validated →
      validate_deps vsub ds dependents validated root = .ok v2 →
      ∃ w, v2 = w ++ [root] ∧ validated ⊆ w ∧ TopoList g w ∧ ∀ d ∈ ds, d ∈ w := by
  intro ds
  induction ds with
  | nil =>
    intro dependents validated root v2 htopo h
    simp only [validate_deps] at h
    cases h
    exact ⟨validated, rfl, fun z hz => hz, htopo, fun d hd => absurd hd (List.not_mem_nil d)⟩
  | cons d ds ih =>
    intro dependents validated root v2 htopo h
    simp only [validate_deps] at h
    cases hcs : cycle_slice d dependents with
    | some c => rw [hcs] at h; cases h
    | none =>
      rw [hcs] at h
      by_cases hdv : d ∈ validated
      · rw [if_pos hdv] at h
        obtain ⟨w, hw, hsub, htw, hds⟩ := ih dependents validated root v2 htopo h
        refine ⟨w, hw, hsub, htw, ?_⟩
        intro d2 hd2
        rcases List.mem_cons.mp hd2 with rfl | h2
        · exact hsub hdv
        · exact hds d2 h2
      · rw [if_neg hdv] at h
        cases hv : vsub d dependents validated with
        | ok validated2 =>
          rw [hv] at h
          obtain ⟨htv2, hsubv2, hdin⟩ := hvs d dependents validated validated2 htopo hv
          obtain ⟨w, hw, hsub, htw, hds⟩ := ih dependents validated2 root v2 htv2 h
          refine ⟨w, hw, fun z hz => hsub (hsubv2 hz), htw, ?_⟩
          intro d2 hd2
          rcases List.mem_cons.mp hd2 with rfl | h2
          · exact hsub hdin
          · exact hds d2 h2
        | cycleFound c => rw [hv] at h; cases h
        | fuelOut => rw [hv] at h; cases h

theorem validate_subtree_ok (g : DepGraph) :
    ∀ (fuel : Nat) (root : Nat) (dependents validated v2 : List Nat),
      TopoList g validated →
      validate_subtree g fuel root dependents validated = .ok v2 →
      TopoList g v2 ∧ validated ⊆ v2 ∧ root ∈ v2 := by
  intro fuel
  induction fuel with
  | zero =>
    intro root dependents validated v2 _ h
    simp only [validate_subtree] at h
    cases h
  | succ fuel ih =>
    intro root dependents validated v2 htopo h
    simp only [validate_subtree] at h
    obtain ⟨w, hw, hsub, htw, hds⟩ := validate_deps_ok g
      (fun root2 dependents2 validated2 v2b ht2 hv2 =>
        ih root2 dependents2 validated2 v2b ht2 hv2)
      (g.deps root) (dependents ++ [root]) validated root v2 htopo h
    subst hw
    exact ⟨TopoList.snoc htw hds, fun z hz => List.mem_append_left _ (hsub hz),
      List.mem_append_right _ (List.mem_singleton.mpr rfl)⟩

theorem validate_loop_ok (g : DepGraph) :
    ∀ (ts validated v : List Nat),
      TopoList g validated →
      validate_loop g ts validated = .ok v →
      TopoList g v ∧ validated ⊆ v ∧ ∀ t ∈ ts, t ∈ v := by
  intro ts
  induction ts with
  | nil =>
    intro validated v htopo h
    simp only [validate_loop] at h
    cases h
    exact ⟨htopo, fun z hz => hz, fun t ht => absurd ht (List.not_mem_nil t)⟩
  | cons t ts ih =>
    intro validated v htopo h
    simp only [validate_loop] at h
    by_cases htv : t ∈ validated
    · rw [if_pos htv] at h
      obtain ⟨htopo2, hsub, hts⟩ := ih validated v htopo h
      refine ⟨htopo2, hsub, ?_⟩
      intro t2 ht2
      rcases List.mem_cons.mp ht2 with rfl | h2
      · exact hsub htv
      · exact hts t2 h2
    · rw [if_neg htv] at h
      cases hv : validate_subtree g (g.targets.length + 1) t [] validated with
      | ok validated2 =>
        rw [hv] at h
        obtain ⟨htv2, hsubv2, htin⟩ := validate_subtree_ok g _ t [] validated validated2 htopo hv
        obtain ⟨htopo2, hsub, hts⟩ := ih validated2 v htv2 h
        refine ⟨htopo2, fun z hz => hsub (hsubv2 hz), ?_⟩
        intro t2 ht2
        rcases List.mem_cons.mp ht2 with rfl | h2
        · exact hsub htin
        · exact hts t2 h2
      | cycleFound c => rw [hv] at h; cases h
      | fuelOut => rw [hv] at h; cases h

theorem nodup_subset_length_le {l1 l2 : List Nat} (hnd : l1.Nodup)
    (hsub : ∀ x ∈ l1, x ∈ l2) : l1.length ≤ l2.length := by
  have h1 : l1.toFinset.card = l1.length := List.toFinset_card_of_nodup hnd
  have h2 : l1.toFinset ⊆ l2.toFinset := by
    intro a ha
    rw [List.mem_toFinset] at ha ⊢
    exact hsub a ha
  have h3 := Finset.card_le_card h2
  have h4 : l2.toFinset.card ≤ l2.length := List.toFinset_card_le l2
  omega

theorem validate_deps_no_fuelOut (g : DepGraph)
    {vsub : Nat → List Nat → List Nat → VRes} (dependents : List Nat) (root : Nat)
    (hvs : ∀ d validated2, d ∉ dependents → d ∈ g.targets →
      vsub d dependents validated2 ≠ .fuelOut)
    (hds_t : ∀ d, d ∈ g.deps root → d ∈ g.targets) :
    ∀ (ds validated : List Nat), (∀ d ∈ ds, d ∈ g.deps root) →
      validate_deps vsub ds dependents validated root ≠ .fuelOut := by
  intro ds
  induction ds with
  | nil =>
    intro validated _ h
    simp only [validate_deps] at h
    cases h
  | cons d ds ih =>
    intro validated hds h
    simp only [validate_deps] at h
    cases hcs : cycle_slice d dependents with
    | some c => rw [hcs] at h; cases h
    | none =>
      rw [hcs] at h
      have hdnotin : d ∉ dependents := cycle_slice_eq_none hcs
      by_cases hdv : d ∈ validated
      · rw [if_pos hdv] at h
        exact ih validated (fun d2 hd2 => hds d2 (List.mem_cons_of_mem _ hd2)) h
      · rw [if_neg hdv] at h
        cases hv : vsub d dependents validated with
        | ok v2 =>
          rw [hv] at h
          exact ih v2 (fun d2 hd2 => hds d2 (List.mem_cons_of_mem _ hd2)) h
        | cycleFound c => rw [hv] at h; cases h
        | fuelOut =>
          exact hvs d validated hdnotin (hds_t d (hds d (List.mem_cons_self _ _))) hv

theorem validate_subtree_no_fuelOut (g : DepGraph) (hc : Closed g) :
    ∀ (fuel : Nat) (root : Nat) (dependents validated : List Nat),
      dependents.Nodup → root ∉ dependents →
      (∀ x ∈ dependents, x ∈ g.targets) → root ∈ g.targets →
      g.targets.length < fuel + dependents.length →
      validate_subtree g fuel root dependents validated ≠ .fuelOut := by
  intro fuel
  induction fuel with
  | zero =>
    intro root dependents validated hnd hnin hdt hrt harith _
    have hnd2 : (dependents ++ [root]).Nodup := by
      rw [List.nodup_append]
      refine ⟨hnd, List.nodup_singleton _, ?_⟩
      intro a ha hb
      rcases List.mem_singleton.mp hb with rfl
      exact hnin ha
    have hsub : ∀ x ∈ dependents ++ [root], x ∈ g.targets := by
      intro x hx
      rcases List.mem_append.mp hx with h1 | h1
      · exact hdt x h1
      · rcases List.mem_singleton.mp h1 with rfl
        exact hrt
    have hlen := nodup_subset_length_le hnd2 hsub
    rw [List.length_append, List.length_singleton] at hlen
    omega
  | succ fuel ih =>
    intro root dependents validated hnd hnin hdt hrt harith h
    simp only [validate_subtree] at h
    refine validate_deps_no_fuelOut g (dependents ++ [root]) root ?_
      (fun d hd => hc root hrt d hd) (g.deps root) validated (fun d hd => hd) h
    intro d validated2 hdnin hdint
    refine ih d (dependents ++ [root]) validated2 ?_ hdnin ?_ hdint ?_
    · rw [List.nodup_append]
      refine ⟨hnd, List.nodup_singleton _, ?_⟩
      intro a ha hb
      rcases List.mem_singleton.mp hb with rfl
      exact hnin ha
    · intro x hx
      rcases List.mem_append.mp hx with h1 | h1
      · exact hdt x h1
      · rcases List.mem_singleton.mp h1 with rfl
        exact hrt
    · rw [List.length_append, List.length_singleton]
      omega

theorem validate_loop_no_fuelOut (g : DepGraph) (hc : Closed g) :
    ∀ (ts validated : List Nat), (∀ t ∈ ts, t ∈ g.targets) →
      validate_loop g ts validated ≠ .fuelOut := by
  intro ts
  induction ts with
  | nil =>
    intro validated _ h
    simp only [validate_loop] at h
    cases h
  | cons t ts ih =>
    intro validated hts h
    simp only [validate_loop] at h
    by_cases htv : t ∈ validated
    · rw [if_pos htv] at h
      exact ih validated (fun t2 ht2 => hts t2 (List.mem_cons_of_mem _ ht2)) h
    · rw [if_neg htv] at h
      cases hv : validate_subtree g (g.targets.length + 1) t [] validated with
      | ok validated2 =>
        rw [hv] at h
        exact ih validated2 (fun t2 ht2 => hts t2 (List.mem_cons_of_mem _ ht2)) h
      | cycleFound c => rw [hv] at h; cases h
      | fuelOut =>
        refine absurd hv (validate_subtree_no_fuelOut g hc _ t [] validated
          List.nodup_nil (List.not_mem_nil t) (fun x hx => absurd hx (List.not_mem_nil x))
          (hts t (List.mem_cons_self _ _)) ?_)
        simp

/-- C1 — cycle detection: on any dependency-closed target graph,
`validate_dependency_graph` raises `DependencyCycleError` with a list of
targets that genuinely forms a cycle in dependency order whenever a
target-to-target cycle exists, and succeeds silently exactly on the acyclic
graphs; on the concrete two-target cycle A → B → A it reports exactly the
cycle `[A, B]`. -/
theorem validate_dependency_graph_correct (g : DepGraph) (hc : Closed g) :
    (∀ c, validate_dependency_graph g = .cycleFound c →
      IsDepCycle g c ∧ ∀ x ∈ c, x ∈ g.targets) ∧
    ((∃ v, validate_dependency_graph g = .ok v) ↔ NoTargetCycle g) ∧
    validate_dependency_graph twoCycleGraph = .cycleFound [0, 1] := by
  refine ⟨?_, ⟨?_, ?_⟩, rfl⟩
  · intro c h
    exact validate_loop_cycle g hc g.targets [] c (fun t ht => ht) h
  · rintro ⟨v, hv⟩ c hcv hcyc
    obtain ⟨htv, _, hts⟩ := validate_loop_ok g g.targets [] v TopoList.nil hv
    exact topoList_no_cycle htv c (fun x hx => hts x (hcv x hx)) hcyc
  · intro hnc
    cases hres : validate_dependency_graph g with
    | ok v => exact ⟨v, rfl⟩
    | cycleFound c =>
      obtain ⟨hcyc, hct⟩ := validate_loop_cycle g hc g.targets [] c (fun t ht => ht) hres
      exact absurd hcyc (hnc c hct)
    | fuelOut =>
      exact absurd hres (validate_loop_no_fuelOut g hc g.targets [] (fun t ht => ht))

/-- C1 witness: the correctness theorem applied to the two-target cycle. -/
theorem validate_dependency_graph_correct_witness :
    Closed twoCycleGraph ∧
    validate_dependency_graph twoCycleGraph = .cycleFound [0, 1] :=
  ⟨by unfold Closed; decide,
    (validate_dependency_graph_correct twoCycleGraph (by unfold Closed; decide)).2.2⟩

end Abamake
